import Mathlib

/-!
Verification development for the `qs` semantic code-search tool
(crates/qs-core).  We shallowly embed the core data model and the
operations of the incremental indexing pipeline:

* the fallback text chunker `chunk_text` (src/crates/qs-core/src/extract.rs),
  modelled at the byte level over lists of characters, where a byte slice
  that does not fall on a UTF-8 character boundary yields `none`
  (a Rust panic);
* the extension filter `should_index` and the chunk extractor
  `extract_chunks` (extract.rs);
* the file manifest `FileIndex` / `FileMetadata` and the indexing run
  `Indexer::index` / `Indexer::index_file` (src/crates/qs-core/src/index.rs),
  with the filesystem, the tree-sitter parser, the embedder and the
  per-call storage outcomes supplied as explicit inputs (they are
  effectful collaborators of the indexer);
* the vector store adapter as an id-keyed association list with the
  upsert/delete semantics of `Storage` (src/crates/qs-core/src/storage.rs);
* JSON values and the serde round-trips for `FileIndex` and `ChunkPayload`.

Rust machine integers (`u64`, `usize`) are modelled as `Nat`: none of the
verified operations can overflow a 64-bit counter on representable inputs,
and the source performs no wrapping arithmetic on them.
-/

namespace QsVerify

/-! ## Definitions: the shallow embedding of the qs core -/

/-- UTF-8 byte length of a list of characters (Rust `str::len`). -/
def byteLen (s : List Char) : Nat := (s.map Char.utf8Size).sum

/-- Take exactly `n` bytes off the front of `s`; `none` when `n` is not a
character boundary of `s` (a Rust string slice would panic there). -/
def takeBytes : List Char → Nat → Option (List Char)
  | _, 0 => some []
  | [], _ + 1 => none
  | c :: cs, n + 1 =>
    if c.utf8Size ≤ n + 1 then
      (takeBytes cs (n + 1 - c.utf8Size)).map (fun t => c :: t)
    else none

/-- Drop exactly `n` bytes off the front of `s`; `none` when `n` is not a
character boundary of `s`. -/
def dropBytes : List Char → Nat → Option (List Char)
  | s, 0 => some s
  | [], _ + 1 => none
  | c :: cs, n + 1 =>
    if c.utf8Size ≤ n + 1 then dropBytes cs (n + 1 - c.utf8Size)
    else none

/-- The byte slice `&s[a..b]` of Rust; `none` models the panic on a
non-boundary index. -/
def byteSlice (s : List Char) (a b : Nat) : Option (List Char) :=
  (dropBytes s a).bind (fun t => takeBytes t (b - a))

/-- Byte offset of the last `'\n'` in `s` (Rust `str::rfind('\n')`). -/
def rfindNl : List Char → Option Nat
  | [] => none
  | c :: cs =>
    match rfindNl cs with
    | some k => some (c.utf8Size + k)
    | none => if c = '\n' then some 0 else none

/-- Number of `'\n'` characters in `s` (Rust `str::matches('\n').count()`). -/
def nlCount (s : List Char) : Nat := (s.filter (fun c => c = '\n')).length

/-- A chunk of text with metadata (`extract::Chunk`). -/
structure Chunk where
  /-- The text content. -/
  text : List Char
  /-- Starting line number (1-indexed). -/
  start_line : Nat
  /-- Ending line number (1-indexed). -/
  end_line : Nat
  /-- Chunk index within the file. -/
  index : Nat
  deriving Repr, DecidableEq

/-- A chunk as emitted by the `chunk_text` loop together with the byte
range `[start, stop)` it was cut from (the loop's `start_pos` and
`chunk_end` values). -/
structure ChunkR where
  /-- The loop's `start_pos` for this chunk. -/
  start : Nat
  /-- The loop's `chunk_end` for this chunk. -/
  stop : Nat
  /-- The emitted chunk. -/
  chunk : Chunk
  deriving Repr, DecidableEq

/-- The `chunk_end` computation of one `chunk_text` iteration at cursor
`pos`: target end is `min (pos + chunk_size) len`; when the target end is
strictly inside the text, the slice `&text[pos..end]` is searched backwards
for a newline and the end snaps to just after it.  `none` models the panic
of the slice on a non-boundary index. -/
def chunkEndAt (text : List Char) (chunk_size pos : Nat) : Option Nat :=
  let endPos := min (pos + chunk_size) (byteLen text)
  if endPos < byteLen text then
    (byteSlice text pos endPos).map (fun sl =>
      match rfindNl sl with
      | some p => pos + p + 1
      | none => endPos)
  else some endPos

/-- The `while char_pos < text.len()` loop of `chunk_text`
(extract.rs:146-185), instrumented to record each chunk's byte range.
`fuel` bounds the number of iterations; the run with `fuel = byteLen text + 1`
never exhausts it for `chunk_size ≥ 1`, and `none` models a run that does
not return normally (a byte-boundary panic, or divergence for
`chunk_size = 0`). -/
def chunkTextGo (text : List Char) (chunk_size overlap : Nat) :
    Nat → Nat → Nat → Option (List ChunkR)
  | 0, _, _ => none
  | fuel + 1, pos, idx =>
    if pos < byteLen text then
      match chunkEndAt text chunk_size pos with
      | none => none
      | some ce =>
        match byteSlice text pos ce with
        | none => none
        | some ctext =>
          let sl := nlCount ((takeBytes text pos).getD []) + 1
          let el := nlCount ((takeBytes text ce).getD []) + 1
          let c : ChunkR := ⟨pos, ce, ⟨ctext, sl, el, idx⟩⟩
          if byteLen text ≤ ce then some [c]
          else
            (chunkTextGo text chunk_size overlap fuel
              (if overlap < ce - pos then ce - overlap else ce) (idx + 1)).map
              (fun rest => c :: rest)
    else some []

/-- `chunk_text` with recorded byte ranges.  Empty input returns the empty
list immediately (extract.rs:138-140). -/
def chunkTextR (text : List Char) (chunk_size overlap : Nat) :
    Option (List ChunkR) :=
  if text = [] then some []
  else chunkTextGo text chunk_size overlap (byteLen text + 1) 0 0

/-- Split text into chunks with overlap (`extract::chunk_text`);
`none` models a run that does not return normally. -/
def chunk_text (text : List Char) (chunk_size overlap : Nat) :
    Option (List Chunk) :=
  (chunkTextR text chunk_size overlap).map (fun rs => rs.map ChunkR.chunk)

/-- The cursor-advance relation of the `chunk_text` loop: a successor chunk
exists only when the current chunk ends strictly before the end of the
text, and it starts at `chunk_end - overlap` when `overlap` is less than
the emitted width, at `chunk_end` otherwise. -/
def advanceRel (len overlap : Nat) (a b : ChunkR) : Prop :=
  a.stop < len ∧
    b.start = if overlap < a.stop - a.start then a.stop - overlap else a.stop

/-- A JSON value, restricted to the shapes the qs documents use. -/
inductive Json where
  /-- An unsigned integer. -/
  | num (n : Nat)
  /-- A string. -/
  | str (s : String)
  /-- An object: ordered fields. -/
  | obj (fields : List (String × Json))
  deriving Repr

/-- First binding of key `k` in an association list. -/
def alookup {κ α : Type} [DecidableEq κ] : List (κ × α) → κ → Option α
  | [], _ => none
  | (k', a) :: t, k => if k' = k then some a else alookup t k

/-- Insert/replace a binding, replacing the first occurrence of the key
and otherwise appending (Rust `HashMap::insert`, keyed semantics). -/
def ainsert {κ α : Type} [DecidableEq κ] :
    List (κ × α) → κ → α → List (κ × α)
  | [], k, a => [(k, a)]
  | (k', a') :: t, k, a =>
    if k' = k then (k, a) :: t else (k', a') :: ainsert t k a

/-- Field access on a JSON object. -/
def Json.getField : Json → String → Option Json
  | .obj fields, k => alookup fields k
  | _, _ => none

/-- Read a JSON number. -/
def Json.asNum : Json → Option Nat
  | .num n => some n
  | _ => none

/-- Read a JSON string. -/
def Json.asStr : Json → Option String
  | .str s => some s
  | _ => none

/-- Read a JSON object's field list. -/
def Json.asObj : Json → Option (List (String × Json))
  | .obj fields => some fields
  | _ => none

/-- Metadata about an indexed file (`index::FileMetadata`). -/
structure FileMetadata where
  /-- Blake3 hash of file content (hex string). -/
  hash : String
  /-- Last modification time (unix timestamp). -/
  mtime : Nat
  /-- Number of chunks. -/
  chunk_count : Nat
  /-- Starting point ID for this file's chunks. -/
  start_id : Nat
  deriving Repr, DecidableEq

/-- File index stored in `.qs/files.json` (`index::FileIndex`).  The Rust
`HashMap<String, FileMetadata>` is modelled as the association list of its
entries (no duplicate keys arise from map operations). -/
structure FileIndex where
  /-- Map of relative path -> metadata. -/
  files : List (String × FileMetadata)
  /-- Next available point ID. -/
  next_id : Nat
  deriving Repr, DecidableEq

/-- Metadata stored with each vector (`storage::ChunkPayload`). -/
structure ChunkPayload where
  /-- Relative file path from repo root. -/
  path : String
  /-- Chunk index within the file. -/
  chunk_index : Nat
  /-- Starting line number. -/
  start_line : Nat
  /-- Ending line number. -/
  end_line : Nat
  /-- The actual text content. -/
  text : List Char
  /-- File hash for change detection. -/
  file_hash : String
  deriving Repr, DecidableEq

/-- Serde serialization of `FileMetadata` (derived `Serialize`). -/
def FileMetadata.toJson (m : FileMetadata) : Json :=
  .obj [("hash", .str m.hash), ("mtime", .num m.mtime),
    ("chunk_count", .num m.chunk_count), ("start_id", .num m.start_id)]

/-- Serde deserialization of `FileMetadata` (derived `Deserialize`). -/
def FileMetadata.fromJson (j : Json) : Option FileMetadata := do
  let hash ← (← j.getField "hash").asStr
  let mtime ← (← j.getField "mtime").asNum
  let chunk_count ← (← j.getField "chunk_count").asNum
  let start_id ← (← j.getField "start_id").asNum
  pure ⟨hash, mtime, chunk_count, start_id⟩

/-- Serde serialization of `FileIndex`. -/
def FileIndex.toJson (m : FileIndex) : Json :=
  .obj [("files", .obj (m.files.map (fun kv => (kv.1, kv.2.toJson)))),
    ("next_id", .num m.next_id)]

/-- Deserialize the entries of the `files` map in document order, later
keys overwriting earlier ones (serde map deserialization). -/
def parseFilesGo :
    List (String × Json) → List (String × FileMetadata) →
      Option (List (String × FileMetadata))
  | [], acc => some acc
  | (k, v) :: t, acc =>
    match FileMetadata.fromJson v with
    | none => none
    | some m => parseFilesGo t (ainsert acc k m)

/-- Serde deserialization of `FileIndex`. -/
def FileIndex.fromJson (j : Json) : Option FileIndex := do
  let files ← (← j.getField "files").asObj
  let files ← parseFilesGo files []
  let next_id ← (← j.getField "next_id").asNum
  pure ⟨files, next_id⟩

/-- Serde serialization of `ChunkPayload`. -/
def ChunkPayload.toJson (p : ChunkPayload) : Json :=
  .obj [("path", .str p.path), ("chunk_index", .num p.chunk_index),
    ("start_line", .num p.start_line), ("end_line", .num p.end_line),
    ("text", .str p.text.asString), ("file_hash", .str p.file_hash)]

/-- Serde deserialization of `ChunkPayload`. -/
def ChunkPayload.fromJson (j : Json) : Option ChunkPayload := do
  let path ← (← j.getField "path").asStr
  let chunk_index ← (← j.getField "chunk_index").asNum
  let start_line ← (← j.getField "start_line").asNum
  let end_line ← (← j.getField "end_line").asNum
  let text ← (← j.getField "text").asStr
  let file_hash ← (← j.getField "file_hash").asStr
  pure ⟨path, chunk_index, start_line, end_line, text.toList, file_hash⟩

mutual

/-- Serialize a JSON value to text.  The exact whitespace of
`serde_json::to_string_pretty` is irrelevant to the development; what
matters is that the written bytes are a function of the JSON value. -/
def Json.render : Json → String
  | .num n => toString n
  | .str s => "\"" ++ s ++ "\""
  | .obj fields => "\x7b" ++ Json.renderFields fields ++ "\x7d"

/-- Render the comma-separated field list of a JSON object. -/
def Json.renderFields : List (String × Json) → String
  | [] => ""
  | [(k, v)] => "\"" ++ k ++ "\": " ++ v.render
  | (k, v) :: t =>
    "\"" ++ k ++ "\": " ++ v.render ++ ", " ++ Json.renderFields t

end

/-- The bytes `FileIndex::save` writes to `.qs/files.json` for a given
manifest value. -/
def manifestBytes (m : FileIndex) : String := m.toJson.render

/-- Configuration stored in `.qs/config.json` (`config::Config`). -/
structure Config where
  /-- Embedding model name. -/
  model : String
  /-- Embedding dimension. -/
  dimension : Nat
  /-- Chunk size in characters. -/
  chunk_size : Nat
  /-- Chunk overlap in characters. -/
  chunk_overlap : Nat
  /-- Maximum file size to index (bytes). -/
  max_file_size : Nat
  /-- File extensions to include (empty = all text files). -/
  include_extensions : List String
  /-- File extensions to exclude. -/
  exclude_extensions : List String
  /-- Additional paths to ignore. -/
  ignore_paths : List String
  deriving Repr

/-- Lowercase a string character by character.  All extension comparisons
in the source touch ASCII extension strings, for which Rust
`str::to_lowercase` agrees with per-character lowercasing. -/
def lowerStr (s : String) : String := ⟨s.data.map Char.toLower⟩

/-- Known text file extensions (`extract::TEXT_EXTENSIONS`). -/
def TEXT_EXTENSIONS : List String :=
  ["txt", "md", "rst", "org", "adoc",
   "rs", "py", "js", "ts", "jsx", "tsx", "go", "java", "c", "cpp", "h",
   "hpp", "cs", "rb", "php", "swift", "kt", "scala", "hs", "ml", "ex",
   "exs", "erl", "clj", "cljs", "lisp", "scm", "lua", "r", "jl", "nim",
   "zig", "v", "d",
   "html", "htm", "css", "scss", "sass", "less", "vue", "svelte",
   "json", "yaml", "yml", "toml", "xml", "ini", "cfg", "conf",
   "sh", "bash", "zsh", "fish", "ps1", "bat", "cmd",
   "csv", "sql",
   "tex", "bib"]

/-- Check if a file extension indicates a text file
(`extract::is_text_extension`). -/
def is_text_extension (ext : String) : Bool :=
  TEXT_EXTENSIONS.contains (lowerStr ext)

/-- Check if a file should be indexed based on config and extension
(`extract::should_index`).  `ext` is the file's `Path::extension()`. -/
def should_index (ext : Option String) (config : Config) : Bool :=
  let extL := lowerStr (ext.getD "")
  if config.exclude_extensions.any (fun e => lowerStr e = extL) then
    false
  else if ¬ config.include_extensions.isEmpty then
    config.include_extensions.any (fun e => lowerStr e = extL)
  else
    is_text_extension extL

/-- Extensions recognized by `CodeLanguage::from_extension` (parse.rs),
with every language feature enabled. -/
def LANG_EXTENSIONS : List String :=
  ["rs", "py", "pyi", "js", "jsx", "mjs", "cjs", "ts", "tsx", "mts",
   "cts", "go", "java", "c", "h", "cpp", "cc", "cxx", "hpp", "hxx", "hh"]

/-- Whether `CodeLanguage::from_extension(ext)` is `Some`. -/
def lang_known (ext : String) : Bool := LANG_EXTENSIONS.contains (lowerStr ext)

/-- Shift a sub-chunk produced by re-splitting an oversized syntax chunk:
line numbers move by `parent_start - 1`, the end line is recomputed from
the newline count, and the index is the running output position
(extract.rs:110-116). -/
def adjustSubs (subs : List Chunk) (parent_start base : Nat) : List Chunk :=
  subs.enum.map (fun iv =>
    { text := iv.2.text,
      start_line := iv.2.start_line + parent_start - 1,
      end_line := iv.2.start_line + parent_start - 1 + nlCount iv.2.text,
      index := base + iv.1 })

/-- The size-cap pass over syntax-derived chunks: any chunk wider than
`2 × chunk_size` bytes is re-split with the line-oriented chunker
(extract.rs:105-124).  `none` models a panic inside `chunk_text`. -/
def splitLargeGo (chunk_size overlap : Nat) :
    List Chunk → List Chunk → Option (List Chunk)
  | [], acc => some acc
  | c :: rest, acc =>
    if chunk_size * 2 < byteLen c.text then
      match chunk_text c.text chunk_size overlap with
      | none => none
      | some subs =>
        splitLargeGo chunk_size overlap rest
          (acc ++ adjustSubs subs c.start_line acc.length)
    else
      splitLargeGo chunk_size overlap rest
        (acc ++ [{ c with index := acc.length }])

/-- Extract chunks from a file (`extract::extract_chunks`).  `ext` is the
file's extension, `parsed` the tree-sitter result for this file (`none`
when the parser declined or failed), and `none` in the result models a
panic inside `chunk_text`. -/
def extract_chunks (ext : Option String) (parsed : Option (List Chunk))
    (text : List Char) (chunk_size overlap : Nat) : Option (List Chunk) :=
  match ext with
  | some e =>
    if lang_known e then
      match parsed with
      | some chunks =>
        match splitLargeGo chunk_size overlap chunks [] with
        | none => none
        | some result =>
          if result.isEmpty then chunk_text text chunk_size overlap
          else some result
      | none => chunk_text text chunk_size overlap
    else chunk_text text chunk_size overlap
  | none => chunk_text text chunk_size overlap

/-- The vector store: an id-keyed association list of payloads. -/
abbrev Store := List (Nat × ChunkPayload)

/-- Resolve an id in the store. -/
def storeLookup (s : Store) (i : Nat) : Option ChunkPayload := alookup s i

/-- `Storage::upsert`: idempotent by id; the same id replaces the prior
payload. -/
def storeUpsert (s : Store) (pts : List (Nat × ChunkPayload)) : Store :=
  pts.foldl (fun acc ip => ainsert acc ip.1 ip.2) s

/-- `Storage::delete`: ids not present are silently ignored. -/
def storeDelete (s : Store) (ids : List Nat) : Store :=
  s.filter (fun ip => decide (ip.1 ∉ ids))

/-- One entry yielded by the walker, together with the environment's
answers for this file. -/
structure FsEntry where
  /-- Repo-relative path with forward slashes (the `rel_path` of
  index.rs:189-193). -/
  relPath : String
  /-- The file's `Path::extension()`. -/
  ext : Option String
  /-- Whether the entry is a directory. -/
  isDir : Bool
  /-- Whether the path lies under the `.qs` state directory. -/
  inQs : Bool
  /-- `fs::metadata(path).len()`; `none` when the metadata call fails. -/
  meta : Option Nat
  /-- `fs::read(path)`; `none` when the read fails. -/
  content : Option (List Nat)
  /-- `extract_text` = `fs::read_to_string(path)`; `none` on I/O failure
  or non-UTF-8 content. -/
  text : Option (List Char)
  /-- `CodeParser::parse_file` on this file's text. -/
  parsed : Option (List Chunk)
  /-- The file's modification time as computed in index.rs:296-304 (any
  failure there collapses to 0). -/
  mtime : Nat
  /-- Whether `Storage::upsert` succeeds for this file's points. -/
  upsertOk : Bool
  /-- Whether `Storage::delete` succeeds for this file's stale ids. -/
  deleteOk : Bool

/-- Stats from an indexing run (`index::IndexStats`). -/
structure IndexStats where
  files_scanned : Nat
  files_indexed : Nat
  files_skipped : Nat
  files_unchanged : Nat
  chunks_created : Nat
  deriving Repr, DecidableEq

/-- The all-zero stats (`IndexStats::default`). -/
def IndexStats.init : IndexStats := ⟨0, 0, 0, 0, 0⟩

/-- Componentwise sum of stats. -/
def IndexStats.add (a b : IndexStats) : IndexStats :=
  ⟨a.files_scanned + b.files_scanned, a.files_indexed + b.files_indexed,
   a.files_skipped + b.files_skipped, a.files_unchanged + b.files_unchanged,
   a.chunks_created + b.chunks_created⟩

/-- Result of `Indexer::index_file` for one queued file: `crash` is an
uncaught panic, `err` a caught `Err`, `ok` carries the chunk count and
the updated manifest and store. -/
inductive FRes (α : Type) where
  /-- An uncaught panic: the whole run dies. -/
  | crash : FRes α
  /-- A caught error: the caller skips the file. -/
  | err : FRes α
  /-- Normal return. -/
  | ok (a : α) : FRes α

/-- `Indexer::index_file` (index.rs:242-312).  The manifest and the store
are read and updated; every fallible step happens before the manifest is
touched. -/
def index_file {E : Type} (cfg : Config)
    (embed : List (List Char) → Option (List E))
    (fi : FileIndex) (store : Store) (e : FsEntry) (h : String) :
    FRes (Nat × FileIndex × Store) :=
  match e.text with
  | none => .err
  | some text =>
    if text.isEmpty then .ok (0, fi, store)
    else
      match extract_chunks e.ext e.parsed text cfg.chunk_size
          cfg.chunk_overlap with
      | none => .crash
      | some chunks =>
        if chunks.isEmpty then .ok (0, fi, store)
        else
          match embed (chunks.map Chunk.text) with
          | none => .err
          | some embs =>
            let start_id := fi.next_id
            let points := (chunks.zip embs).enum.map (fun icv =>
              (start_id + icv.1,
                { path := e.relPath, chunk_index := icv.2.1.index,
                  start_line := icv.2.1.start_line,
                  end_line := icv.2.1.end_line, text := icv.2.1.text,
                  file_hash := h : ChunkPayload }))
            if e.upsertOk = true ∨ points.isEmpty then
              .ok (chunks.length,
                ⟨ainsert fi.files e.relPath
                    ⟨h, e.mtime, chunks.length, start_id⟩,
                  start_id + chunks.length⟩,
                storeUpsert store points)
            else .err

/-- State of the scan phase of `Indexer::index` (index.rs:147-209):
stats, the store (old ranges of changed files get deleted here), and the
`files_to_index` queue. -/
structure ScanSt where
  stats : IndexStats
  store : Store
  queued : List (FsEntry × String)

/-- One iteration of the scan loop.  `none` models an early `Err` return
of `index` (a failing `fs::metadata` call, or a failing delete of a
changed file's stale ids). -/
def scanStep (cfg : Config) (hashFn : List Nat → String) (fi : FileIndex)
    (s : ScanSt) (e : FsEntry) : Option ScanSt :=
  if e.isDir = true then some s
  else if e.inQs = true then some s
  else
    let stats := { s.stats with
      files_scanned := s.stats.files_scanned + 1 }
    if ¬ should_index e.ext cfg then
      some { s with stats :=
        { stats with files_skipped := stats.files_skipped + 1 } }
    else
      match e.meta with
      | none => none
      | some len =>
        if cfg.max_file_size < len then
          some { s with stats :=
            { stats with files_skipped := stats.files_skipped + 1 } }
        else
          match e.content with
          | none =>
            some { s with stats :=
              { stats with files_skipped := stats.files_skipped + 1 } }
          | some bytes =>
            let h := hashFn bytes
            match alookup fi.files e.relPath with
            | some existing =>
              if existing.hash = h then
                some { s with stats := { stats with
                  files_unchanged := stats.files_unchanged + 1 } }
              else
                let ids := List.range' existing.start_id existing.chunk_count
                if e.deleteOk = true ∨ ids.isEmpty then
                  some ⟨stats, storeDelete s.store ids,
                    s.queued ++ [(e, h)]⟩
                else none
            | none =>
              some ⟨stats, s.store, s.queued ++ [(e, h)]⟩

/-- The scan loop over all walked entries. -/
def scanAll (cfg : Config) (hashFn : List Nat → String) (fi : FileIndex) :
    List FsEntry → ScanSt → Option ScanSt
  | [], s => some s
  | e :: rest, s =>
    match scanStep cfg hashFn fi s e with
    | none => none
    | some s' => scanAll cfg hashFn fi rest s'

/-- State of the processing phase of `Indexer::index`
(index.rs:211-230). -/
structure ProcSt where
  stats : IndexStats
  fi : FileIndex
  store : Store

/-- One iteration of the processing loop: a caught `index_file` error
counts the file as skipped; a panic kills the run (`none`). -/
def procStep {E : Type} (cfg : Config)
    (embed : List (List Char) → Option (List E))
    (s : ProcSt) (eh : FsEntry × String) : Option ProcSt :=
  match index_file cfg embed s.fi s.store eh.1 eh.2 with
  | .crash => none
  | .err =>
    some { s with stats :=
      { s.stats with files_skipped := s.stats.files_skipped + 1 } }
  | .ok (n, fi', store') =>
    some ⟨{ s.stats with
      files_indexed := s.stats.files_indexed + 1,
      chunks_created := s.stats.chunks_created + n }, fi', store'⟩

/-- The processing loop over the queued files. -/
def procAll {E : Type} (cfg : Config)
    (embed : List (List Char) → Option (List E)) :
    List (FsEntry × String) → ProcSt → Option ProcSt
  | [], s => some s
  | eh :: rest, s =>
    match procStep cfg embed s eh with
    | none => none
    | some s' => procAll cfg embed rest s'

/-- The observable outcome of a successful `Indexer::index` run: the
returned stats, the final manifest and store, and the bytes written to
`.qs/files.json`. -/
structure IndexResult where
  stats : IndexStats
  fileIndex : FileIndex
  store : Store
  savedManifest : String

/-- `Indexer::index` (index.rs:129-239): scan and diff every walked
entry, then process the queue, then save the manifest and flush.  `none`
models a run that does not return `Ok` (an early `Err` or a panic);
manifest save and flush failures are not modelled. -/
def index {E : Type} (cfg : Config) (hashFn : List Nat → String)
    (embed : List (List Char) → Option (List E))
    (entries : List FsEntry) (fi : FileIndex) (store : Store) :
    Option IndexResult :=
  match scanAll cfg hashFn fi entries ⟨IndexStats.init, store, []⟩ with
  | none => none
  | some sc =>
    match procAll cfg embed sc.queued ⟨sc.stats, fi, sc.store⟩ with
    | none => none
    | some p => some ⟨p.stats, p.fi, p.store, manifestBytes p.fi⟩

/-- The stale ids the scan deletes when it reaches a candidate entry
(index.rs:196-206): nonempty exactly when the file was hashed and its
hash differs from its manifest entry's. -/
def scanDeletes (hashFn : List Nat → String) (fi : FileIndex)
    (e : FsEntry) : List Nat :=
  match e.content with
  | none => []
  | some b =>
    match alookup fi.files e.relPath with
    | some ex =>
      if ex.hash = hashFn b then []
      else List.range' ex.start_id ex.chunk_count
    | none => []

/-- The caught per-file failure modes of the amended claim C2: the
content read fails during the scan, or the file — new, or changed with
its stale delete succeeding (a failing delete, like a failing metadata
read, is propagated with `?`) — reaches `index_file` and fails there at
text extraction, at embedding, or at upsert. -/
def CaughtFailure {E : Type} (cfg : Config)
    (hashFn : List Nat → String)
    (embed : List (List Char) → Option (List E)) (fi : FileIndex)
    (e : FsEntry) : Prop :=
  e.content = none ∨
  (∃ b, e.content = some b ∧
    (∀ ex, alookup fi.files e.relPath = some ex →
      ex.hash ≠ hashFn b ∧ (ex.chunk_count = 0 ∨ e.deleteOk = true)) ∧
    (e.text = none ∨
      (∃ t, e.text = some t ∧ t ≠ [] ∧ ∃ cs,
        extract_chunks e.ext e.parsed t cfg.chunk_size cfg.chunk_overlap =
          some cs ∧ cs ≠ [] ∧ embed (cs.map Chunk.text) = none) ∨
      (∃ t, e.text = some t ∧ t ≠ [] ∧ ∃ cs,
        extract_chunks e.ext e.parsed t cfg.chunk_size cfg.chunk_overlap =
          some cs ∧ cs ≠ [] ∧ ∃ vs, embed (cs.map Chunk.text) = some vs ∧
        vs ≠ [] ∧ e.upsertOk = false)))

/-- Two manifest entries own disjoint id ranges (one ends before the
other starts). -/
def rangesDisjoint (a b : FileMetadata) : Prop :=
  a.start_id + a.chunk_count ≤ b.start_id ∨
  b.start_id + b.chunk_count ≤ a.start_id

/-- The manifest invariant: keys are unique, every entry's id range ends
within `next_id`, and the ranges are pairwise disjoint. -/
def ManifestInv (M : FileIndex) : Prop :=
  (M.files.map Prod.fst).Nodup ∧
  (∀ pm ∈ M.files, pm.2.start_id + pm.2.chunk_count ≤ M.next_id) ∧
  M.files.Pairwise (fun a b => rangesDisjoint a.2 b.2)

/-- Whether an entry reaches the hash-and-diff stage of the scan: a
non-directory outside `.qs` that passes the extension and size filters
and whose content is readable. -/
def hashedCandB (cfg : Config) (e : FsEntry) : Bool :=
  !e.isDir && !e.inQs && should_index e.ext cfg &&
    (match e.meta with
     | some n => decide (n ≤ cfg.max_file_size)
     | none => false) &&
    e.content.isSome

/-- Every id of the entry's range resolves in the store to a payload
carrying the entry's hash and the file's path. -/
def Resolves (S : Store) (p : String) (m : FileMetadata) : Prop :=
  ∀ i < m.chunk_count, ∃ pl, storeLookup S (m.start_id + i) = some pl ∧
    pl.file_hash = m.hash ∧ pl.path = p

/-- Total chunk count over all manifest entries. -/
def sumChunks (M : FileIndex) : Nat :=
  (M.files.map (fun pm => pm.2.chunk_count)).sum

/-- The conditions under which `index_file` commits a file: readable
non-empty UTF-8 text, a normal chunk extraction yielding at least one
chunk, one embedding per chunk (the embedder contract), and a successful
upsert. -/
def CommitSpec {E : Type} (cfg : Config)
    (embed : List (List Char) → Option (List E)) (e : FsEntry) : Prop :=
  ∃ t, e.text = some t ∧ t ≠ [] ∧ ∃ cs,
    extract_chunks e.ext e.parsed t cfg.chunk_size cfg.chunk_overlap =
      some cs ∧ cs ≠ [] ∧ ∃ vs, embed (cs.map Chunk.text) = some vs ∧
    vs.length = cs.length ∧ e.upsertOk = true

/-- The embedder contract (`Embedder::embed_batch` via fastembed): when
embedding a file's chunk texts succeeds, it returns one vector per
chunk. -/
def EmbedPerChunk {E : Type} (cfg : Config)
    (embed : List (List Char) → Option (List E)) (e : FsEntry) : Prop :=
  ∀ t, e.text = some t →
    ∀ cs, extract_chunks e.ext e.parsed t cfg.chunk_size
      cfg.chunk_overlap = some cs →
    ∀ vs, embed (cs.map Chunk.text) = some vs → vs.length = cs.length

/-- Invariant of the processing phase: the manifest invariant holds, every
entry not still pending resolves in the store, pending paths are distinct,
and every pending file respects the embedder contract and — when the
manifest still holds an entry under its path, so that a caught failure
would leave that entry stale — satisfies the commit conditions. -/
def ProcInv {E : Type} (cfg : Config)
    (embed : List (List Char) → Option (List E)) (s : ProcSt)
    (pending : List (FsEntry × String)) : Prop :=
  ManifestInv s.fi ∧
  (∀ pm ∈ s.fi.files, pm.1 ∉ pending.map (fun eh => eh.1.relPath) →
    Resolves s.store pm.1 pm.2) ∧
  (pending.map (fun eh => eh.1.relPath)).Nodup ∧
  (∀ eh ∈ pending, EmbedPerChunk cfg embed eh.1 ∧
    ((∃ m, (eh.1.relPath, m) ∈ s.fi.files) → CommitSpec cfg embed eh.1))

/-- What is true of every file the scan queues: it passed every filter,
was hashed, and is new or changed relative to the manifest. -/
def QueueCond (cfg : Config) (hashFn : List Nat → String) (M : FileIndex)
    (eh : FsEntry × String) : Prop :=
  eh.1.isDir = false ∧ eh.1.inQs = false ∧
  should_index eh.1.ext cfg = true ∧
  (∃ nn, eh.1.meta = some nn ∧ nn ≤ cfg.max_file_size) ∧
  ∃ b, eh.1.content = some b ∧ eh.2 = hashFn b ∧
    ∀ ex, alookup M.files eh.1.relPath = some ex → ex.hash ≠ hashFn b

/-! ## Theorems -/

@[simp] theorem byteLen_nil : byteLen [] = 0 := rfl

@[simp] theorem byteLen_cons (c : Char) (t : List Char) :
    byteLen (c :: t) = c.utf8Size + byteLen t := by
  simp [byteLen]

theorem takeBytes_byteLen :
    ∀ (s : List Char) (n : Nat) (t : List Char),
      takeBytes s n = some t → byteLen t = n := by
  intro s
  induction s with
  | nil =>
    intro n t h
    cases n with
    | zero => simp only [takeBytes] at h; cases h; rfl
    | succ m => simp [takeBytes] at h
  | cons c cs ih =>
    intro n t h
    cases n with
    | zero => simp only [takeBytes] at h; cases h; rfl
    | succ m =>
      simp only [takeBytes] at h
      split at h
      · next hle =>
        obtain ⟨t', ht', rfl⟩ := Option.map_eq_some'.1 h
        have hlen := ih _ _ ht'
        simp only [byteLen_cons, hlen]
        omega
      · exact absurd h (by simp)

theorem rfindNl_lt :
    ∀ (s : List Char) (p : Nat), rfindNl s = some p → p < byteLen s := by
  intro s
  induction s with
  | nil => intro p h; simp [rfindNl] at h
  | cons c cs ih =>
    intro p h
    have hc := c.utf8Size_pos
    simp only [rfindNl] at h
    split at h
    · next k hr =>
      cases h
      have hk := ih _ hr
      simp only [byteLen_cons]
      omega
    · next hr =>
      split at h
      · cases h
        simp only [byteLen_cons]
        omega
      · exact absurd h (by simp)

theorem byteSlice_byteLen (s : List Char) (a b : Nat) (t : List Char)
    (h : byteSlice s a b = some t) : byteLen t = b - a := by
  unfold byteSlice at h
  obtain ⟨u, _, ht⟩ := Option.bind_eq_some.1 h
  exact takeBytes_byteLen _ _ _ ht

/-- The end of a chunk never passes the target end: it stays within
`chunk_size` bytes of the cursor and within the text. -/
theorem chunkEndAt_le (text : List Char) (cs pos ce : Nat)
    (h : chunkEndAt text cs pos = some ce) :
    ce ≤ pos + cs ∧ ce ≤ byteLen text := by
  have hl := Nat.min_le_left (pos + cs) (byteLen text)
  have hr := Nat.min_le_right (pos + cs) (byteLen text)
  simp only [chunkEndAt] at h
  split at h
  · next hlt =>
    obtain ⟨sl, hsl, hce⟩ := Option.map_eq_some'.1 h
    have hslen := byteSlice_byteLen _ _ _ _ hsl
    split at hce
    · next p hp =>
      cases hce
      have hplt := rfindNl_lt _ _ hp
      rw [hslen] at hplt
      omega
    · next hp =>
      cases hce
      omega
  · next hge =>
    cases h
    omega

/-- The chunk end never precedes the cursor. -/
theorem chunkEndAt_ge (text : List Char) (cs pos ce : Nat)
    (hpos : pos < byteLen text)
    (h : chunkEndAt text cs pos = some ce) : pos ≤ ce := by
  have hmin : pos ≤ min (pos + cs) (byteLen text) :=
    le_min (by omega) (le_of_lt hpos)
  simp only [chunkEndAt] at h
  split at h
  · next hlt =>
    obtain ⟨sl, hsl, hce⟩ := Option.map_eq_some'.1 h
    split at hce
    · next p hp => cases hce; omega
    · next hp => cases hce; omega
  · next hge =>
    cases h
    omega

/-- With a positive chunk size the cursor strictly advances: the chunk end
lies strictly beyond the cursor. -/
theorem chunkEndAt_pos_lt (text : List Char) (cs pos ce : Nat)
    (hcs : 1 ≤ cs) (hpos : pos < byteLen text)
    (h : chunkEndAt text cs pos = some ce) : pos < ce := by
  have hmin : pos < min (pos + cs) (byteLen text) :=
    Nat.lt_min.2 ⟨by omega, hpos⟩
  simp only [chunkEndAt] at h
  split at h
  · next hlt =>
    obtain ⟨sl, hsl, hce⟩ := Option.map_eq_some'.1 h
    split at hce
    · next p hp =>
      cases hce
      omega
    · next hp =>
      cases hce
      omega
  · next hge =>
    cases h
    omega

/-- A successful `chunkTextGo` run starting inside the text emits a first
chunk whose range starts at the cursor. -/
theorem chunkTextGo_head :
    ∀ (fuel : Nat) (text : List Char) (cs ov pos idx : Nat)
      (rs : List ChunkR),
      chunkTextGo text cs ov fuel pos idx = some rs →
      pos < byteLen text →
      ∃ r rest, rs = r :: rest ∧ r.start = pos := by
  intro fuel
  cases fuel with
  | zero => intro text cs ov pos idx rs h _; simp [chunkTextGo] at h
  | succ fuel =>
    intro text cs ov pos idx rs h hpos
    simp only [chunkTextGo, if_pos hpos] at h
    split at h
    · exact absurd h (by simp)
    · next ce hce =>
      split at h
      · exact absurd h (by simp)
      · next ctext hct =>
        split at h
        · next hbreak =>
          refine ⟨_, _, by cases h; rfl, rfl⟩
        · next hcont =>
          obtain ⟨rest, _, rfl⟩ := Option.map_eq_some'.1 h
          exact ⟨_, _, rfl, rfl⟩

/-- Every chunk of a successful `chunkTextGo` run lies between the cursor
and the end of the text, spans at most `chunk_size` bytes, and (for a
positive chunk size) is nonempty. -/
theorem chunkTextGo_bounds :
    ∀ (fuel : Nat) (text : List Char) (cs ov pos idx : Nat)
      (rs : List ChunkR),
      chunkTextGo text cs ov fuel pos idx = some rs →
      ∀ r ∈ rs, pos ≤ r.start ∧ r.stop ≤ byteLen text ∧
        r.stop ≤ r.start + cs ∧ (1 ≤ cs → r.start < r.stop) := by
  intro fuel
  induction fuel with
  | zero => intro text cs ov pos idx rs h; simp [chunkTextGo] at h
  | succ fuel ih =>
    intro text cs ov pos idx rs h
    by_cases hpos : pos < byteLen text
    · simp only [chunkTextGo, if_pos hpos] at h
      split at h
      · exact absurd h (by simp)
      · next ce hce =>
        split at h
        · exact absurd h (by simp)
        · next ctext hct =>
          obtain ⟨hm1, hm2⟩ := chunkEndAt_le _ _ _ _ hce
          split at h
          · next hbreak =>
            cases h
            intro r hr
            simp at hr
            subst hr
            refine ⟨le_refl _, by simp; omega, by simp; omega, fun hcs => ?_⟩
            exact chunkEndAt_pos_lt _ _ _ _ hcs hpos hce
          · next hcont =>
            push_neg at hcont
            obtain ⟨rest, hrest, rfl⟩ := Option.map_eq_some'.1 h
            intro r hr
            rcases List.mem_cons.1 hr with rfl | hmem
            · refine ⟨le_refl _, by simp; omega, by simp; omega, fun hcs => ?_⟩
              exact chunkEndAt_pos_lt _ _ _ _ hcs hpos hce
            · have := ih _ _ _ _ _ _ hrest r hmem
              have hge := chunkEndAt_ge _ _ _ _ hpos hce
              have hnext : pos ≤ (if ov < ce - pos then ce - ov else ce) := by
                split
                · omega
                · omega
              exact ⟨le_trans hnext this.1, this.2.1, this.2.2.1, this.2.2.2⟩
    · simp only [chunkTextGo, if_neg hpos] at h
      cases h
      intro r hr
      simp at hr

/-- The last chunk of a successful `chunkTextGo` run ends exactly at the
end of the text. -/
theorem chunkTextGo_last :
    ∀ (fuel : Nat) (text : List Char) (cs ov pos idx : Nat)
      (rs : List ChunkR) (r : ChunkR),
      chunkTextGo text cs ov fuel pos idx = some rs →
      rs.getLast? = some r → r.stop = byteLen text := by
  intro fuel
  induction fuel with
  | zero => intro text cs ov pos idx rs r h _; simp [chunkTextGo] at h
  | succ fuel ih =>
    intro text cs ov pos idx rs r h hlast
    by_cases hpos : pos < byteLen text
    · simp only [chunkTextGo, if_pos hpos] at h
      split at h
      · exact absurd h (by simp)
      · next ce hce =>
        split at h
        · exact absurd h (by simp)
        · next ctext hct =>
          obtain ⟨hm1, hm2⟩ := chunkEndAt_le _ _ _ _ hce
          split at h
          · next hbreak =>
            cases h
            simp at hlast
            subst hlast
            simp
            omega
          · next hcont =>
            push_neg at hcont
            obtain ⟨rest, hrest, rfl⟩ := Option.map_eq_some'.1 h
            have hnext : (if ov < ce - pos then ce - ov else ce) <
                byteLen text := by
              split
              · omega
              · omega
            obtain ⟨r', rest', heq, _⟩ :=
              chunkTextGo_head _ _ _ _ _ _ _ hrest hnext
            subst heq
            rw [List.getLast?_cons_cons] at hlast
            exact ih _ _ _ _ _ _ _ hrest hlast
    · simp only [chunkTextGo, if_neg hpos] at h
      cases h
      simp at hlast

/-- Consecutive chunks of a successful `chunkTextGo` run are linked by the
cursor-advance rule, and every chunk spans at most `chunk_size` bytes. -/
theorem chunkTextGo_chain :
    ∀ (fuel : Nat) (text : List Char) (cs ov pos idx : Nat)
      (rs : List ChunkR),
      chunkTextGo text cs ov fuel pos idx = some rs →
      List.Chain'
        (fun a b => advanceRel (byteLen text) ov a b ∧ a.stop ≤ a.start + cs)
        rs := by
  intro fuel
  induction fuel with
  | zero => intro text cs ov pos idx rs h; simp [chunkTextGo] at h
  | succ fuel ih =>
    intro text cs ov pos idx rs h
    by_cases hpos : pos < byteLen text
    · simp only [chunkTextGo, if_pos hpos] at h
      split at h
      · exact absurd h (by simp)
      · next ce hce =>
        split at h
        · exact absurd h (by simp)
        · next ctext hct =>
          obtain ⟨hm1, hm2⟩ := chunkEndAt_le _ _ _ _ hce
          split at h
          · next hbreak =>
            cases h
            simp
          · next hcont =>
            push_neg at hcont
            obtain ⟨rest, hrest, rfl⟩ := Option.map_eq_some'.1 h
            have hchain := ih _ _ _ _ _ _ hrest
            have hnext : (if ov < ce - pos then ce - ov else ce) <
                byteLen text := by
              split
              · omega
              · omega
            obtain ⟨r', rest', heq, hstart⟩ :=
              chunkTextGo_head _ _ _ _ _ _ _ hrest hnext
            subst heq
            refine List.chain'_cons.2 ⟨⟨⟨hcont, ?_⟩, by simp; omega⟩, hchain⟩
            simpa using hstart
    · simp only [chunkTextGo, if_neg hpos] at h
      cases h
      simp

/-- Every byte position from the cursor to the end of the text is covered
by some chunk of a successful `chunkTextGo` run. -/
theorem chunkTextGo_cover :
    ∀ (fuel : Nat) (text : List Char) (cs ov pos idx : Nat)
      (rs : List ChunkR),
      chunkTextGo text cs ov fuel pos idx = some rs →
      ∀ i, pos ≤ i → i < byteLen text →
        ∃ r ∈ rs, r.start ≤ i ∧ i < r.stop := by
  intro fuel
  induction fuel with
  | zero => intro text cs ov pos idx rs h; simp [chunkTextGo] at h
  | succ fuel ih =>
    intro text cs ov pos idx rs h i hpi hilen
    have hpos : pos < byteLen text := lt_of_le_of_lt hpi hilen
    simp only [chunkTextGo, if_pos hpos] at h
    split at h
    · exact absurd h (by simp)
    · next ce hce =>
      split at h
      · exact absurd h (by simp)
      · next ctext hct =>
        obtain ⟨hm1, hm2⟩ := chunkEndAt_le _ _ _ _ hce
        split at h
        · next hbreak =>
          cases h
          refine ⟨_, List.mem_cons_self _ _, hpi, ?_⟩
          show i < ce
          omega
        · next hcont =>
          push_neg at hcont
          obtain ⟨rest, hrest, rfl⟩ := Option.map_eq_some'.1 h
          by_cases hi : i < ce
          · exact ⟨_, List.mem_cons_self _ _, hpi, hi⟩
          · push_neg at hi
            have hnext : (if ov < ce - pos then ce - ov else ce) ≤ i := by
              split
              · omega
              · omega
            obtain ⟨r, hr, hri⟩ := ih _ _ _ _ _ _ hrest i hnext hilen
            exact ⟨r, List.mem_cons_of_mem _ hr, hri⟩

theorem byteLen_pos (text : List Char) (h : text ≠ []) : 0 < byteLen text := by
  cases text with
  | nil => exact absurd rfl h
  | cons c cs =>
    have := c.utf8Size_pos
    simp only [byteLen_cons]
    omega

/-- Claim C6: for every non-empty input and `chunk_size ≥ 1`, on a normal
return of `chunk_text` the byte ranges of the emitted chunks cover exactly
`[0, len)`: the first starts at 0, consecutive ranges abut or overlap,
every range is nonempty and ends within the text, the last ends at `len`,
and every byte position is inside some range; the empty input yields the
empty chunk list. -/
theorem claim_C6_chunk_coverage (cs ov : Nat) :
    chunkTextR [] cs ov = some [] ∧
    ∀ (text : List Char) (rs : List ChunkR), 1 ≤ cs →
      chunkTextR text cs ov = some rs → text ≠ [] →
      rs ≠ [] ∧
      (∀ r, rs.head? = some r → r.start = 0) ∧
      List.Chain' (fun a b => b.start ≤ a.stop) rs ∧
      (∀ r ∈ rs, r.start < r.stop ∧ r.stop ≤ byteLen text) ∧
      (∀ r, rs.getLast? = some r → r.stop = byteLen text) ∧
      (∀ i, i < byteLen text → ∃ r ∈ rs, r.start ≤ i ∧ i < r.stop) := by
  refine ⟨by simp [chunkTextR], ?_⟩
  intro text rs hcs h hne
  rw [chunkTextR, if_neg hne] at h
  have hpos : 0 < byteLen text := byteLen_pos text hne
  obtain ⟨r0, rest0, hrs, hr0⟩ := chunkTextGo_head _ _ _ _ _ _ _ h hpos
  have hbounds := chunkTextGo_bounds _ _ _ _ _ _ _ h
  refine ⟨by rw [hrs]; simp, ?_, ?_, ?_, ?_, ?_⟩
  · intro r hr
    rw [hrs] at hr
    simp at hr
    rw [← hr]
    exact hr0
  · refine (chunkTextGo_chain _ _ _ _ _ _ _ h).imp ?_
    rintro a b ⟨⟨hlt, hstart⟩, hwidth⟩
    rw [hstart]
    split
    · omega
    · omega
  · intro r hr
    have := hbounds r hr
    exact ⟨this.2.2.2 hcs, this.2.1⟩
  · intro r hr
    exact chunkTextGo_last _ _ _ _ _ _ _ _ h hr
  · intro i hi
    exact chunkTextGo_cover _ _ _ _ _ _ _ h i (Nat.zero_le i) hi

/-- Witness for C6 at the concrete input `"ab"`, `chunk_size = 1`,
`overlap = 0`. -/
theorem claim_C6_witness :
    chunkTextR ['a', 'b'] 1 0 =
      some [⟨0, 1, ⟨['a'], 1, 1, 0⟩⟩, ⟨1, 2, ⟨['b'], 1, 1, 1⟩⟩] ∧
    ([⟨0, 1, ⟨['a'], 1, 1, 0⟩⟩, ⟨1, 2, ⟨['b'], 1, 1, 1⟩⟩] :
      List ChunkR) ≠ [] ∧
    ∀ i, i < byteLen ['a', 'b'] →
      ∃ r ∈ ([⟨0, 1, ⟨['a'], 1, 1, 0⟩⟩, ⟨1, 2, ⟨['b'], 1, 1, 1⟩⟩] :
        List ChunkR), r.start ≤ i ∧ i < r.stop := by
  have h := (claim_C6_chunk_coverage 1 0).2 ['a', 'b']
    [⟨0, 1, ⟨['a'], 1, 1, 0⟩⟩, ⟨1, 2, ⟨['b'], 1, 1, 1⟩⟩]
    (by decide) (by decide) (by decide)
  exact ⟨by decide, h.1, h.2.2.2.2.2⟩

/-- Claim C7: consecutive chunks are linked by the cursor-advance rule
(`end − overlap` when `overlap < end − cursor`, else `end`), each
non-final chunk ends strictly inside the text, the final chunk ends at
`len`, and with `chunk_overlap ≥ chunk_size` consecutive chunks abut
exactly (no shared bytes). -/
theorem claim_C7_cursor_advance (text : List Char) (cs ov : Nat)
    (rs : List ChunkR) (h : chunkTextR text cs ov = some rs) :
    List.Chain' (advanceRel (byteLen text) ov) rs ∧
    (cs ≤ ov → List.Chain' (fun a b => b.start = a.stop) rs) ∧
    (∀ r, rs.getLast? = some r → r.stop = byteLen text) ∧
    (text ≠ [] → rs ≠ []) := by
  rw [chunkTextR] at h
  split at h
  · next he =>
    cases h
    exact ⟨by simp, fun _ => by simp, by simp, fun hne => absurd he hne⟩
  · next hne =>
    have hpos : 0 < byteLen text := byteLen_pos text (by simpa using hne)
    have hchain := chunkTextGo_chain _ _ _ _ _ _ _ h
    refine ⟨hchain.imp (fun a b hab => hab.1), ?_, ?_, ?_⟩
    · intro hcsov
      refine hchain.imp ?_
      rintro a b ⟨⟨hlt, hstart⟩, hwidth⟩
      rw [hstart, if_neg (by omega)]
    · intro r hr
      exact chunkTextGo_last _ _ _ _ _ _ _ _ h hr
    · intro _
      obtain ⟨r0, rest0, hrs, _⟩ := chunkTextGo_head _ _ _ _ _ _ _ h hpos
      rw [hrs]
      simp

/-- Witness for C7 at the concrete input `"abc"`, `chunk_size = 2`,
`overlap = 5` (overlap larger than the chunk size). -/
theorem claim_C7_witness :
    List.Chain' (fun a b => b.start = a.stop)
      ([⟨0, 2, ⟨['a', 'b'], 1, 1, 0⟩⟩, ⟨2, 3, ⟨['c'], 1, 1, 1⟩⟩] :
        List ChunkR) ∧
    (∀ r, ([⟨0, 2, ⟨['a', 'b'], 1, 1, 0⟩⟩, ⟨2, 3, ⟨['c'], 1, 1, 1⟩⟩] :
      List ChunkR).getLast? = some r → r.stop = byteLen ['a', 'b', 'c']) := by
  have h := claim_C7_cursor_advance ['a', 'b', 'c'] 2 5
    [⟨0, 2, ⟨['a', 'b'], 1, 1, 0⟩⟩, ⟨2, 3, ⟨['c'], 1, 1, 1⟩⟩] (by decide)
  exact ⟨h.2.1 (by decide), h.2.2.1⟩

/-- Claim C10 is false of the code: `chunk_text` slices the text at raw
byte offset `cursor + chunk_size`, which can fall inside a multi-byte
character and panic.  On the two-character input `"éé"` (4 bytes) with
`chunk_size = 3` the slice `&text[0..3]` hits the middle of the second
`'é'` and the function does not return. -/
theorem claim_C10_panic : chunk_text ['é', 'é'] 3 0 = none := by decide

theorem FileMetadata.fromJson_toJson (m : FileMetadata) :
    FileMetadata.fromJson m.toJson = some m := rfl

theorem ainsert_not_mem {κ α : Type} [DecidableEq κ] :
    ∀ (acc : List (κ × α)) (k : κ) (a : α), k ∉ acc.map Prod.fst →
      ainsert acc k a = acc ++ [(k, a)] := by
  intro acc
  induction acc with
  | nil => intro k a _; rfl
  | cons kv t ih =>
    intro k a hk
    simp only [List.map_cons, List.mem_cons] at hk
    push_neg at hk
    simp only [ainsert, if_neg (Ne.symm hk.1)]
    rw [ih k a hk.2]
    rfl

theorem parseFilesGo_map :
    ∀ (files acc : List (String × FileMetadata)),
      (files.map Prod.fst).Nodup →
      (∀ k ∈ files.map Prod.fst, k ∉ acc.map Prod.fst) →
      parseFilesGo (files.map (fun kv => (kv.1, kv.2.toJson))) acc =
        some (acc ++ files) := by
  intro files
  induction files with
  | nil => intro acc _ _; simp [parseFilesGo]
  | cons kv t ih =>
    intro acc hnodup hdisj
    simp only [List.map_cons, List.nodup_cons] at hnodup
    simp only [parseFilesGo, FileMetadata.fromJson_toJson]
    rw [ainsert_not_mem acc kv.1 kv.2 (hdisj kv.1 (by simp))]
    rw [ih (acc ++ [(kv.1, kv.2)]) hnodup.2 ?_]
    · simp
    · intro k hk
      simp only [List.map_append, List.mem_append]
      push_neg
      refine ⟨hdisj k (by simp [hk]), ?_⟩
      simp only [List.map_cons]
      intro hke
      simp at hke
      exact hnodup.1 (hke ▸ hk)

/-- Claim C9: serializing a `ChunkPayload` to JSON and deserializing
yields the same payload, and likewise for the manifest (`FileIndex`),
whose map cannot contain duplicate keys. -/
theorem claim_C9_roundtrip :
    (∀ p : ChunkPayload, ChunkPayload.fromJson p.toJson = some p) ∧
    (∀ m : FileIndex, (m.files.map Prod.fst).Nodup →
      FileIndex.fromJson m.toJson = some m) := by
  refine ⟨fun p => rfl, fun m hnodup => ?_⟩
  have hp := parseFilesGo_map m.files [] hnodup (by simp)
  simp [FileIndex.fromJson, FileIndex.toJson, Json.getField, alookup,
    Json.asObj, Json.asNum, hp]

/-- Witness for C9 at a concrete payload and a concrete one-entry
manifest. -/
theorem claim_C9_witness :
    ChunkPayload.fromJson
        (ChunkPayload.toJson ⟨"a.rs", 0, 1, 2, ['x'], "h"⟩) =
      some ⟨"a.rs", 0, 1, 2, ['x'], "h"⟩ ∧
    FileIndex.fromJson (FileIndex.toJson ⟨[("a.rs", ⟨"h", 5, 2, 0⟩)], 2⟩) =
      some ⟨[("a.rs", ⟨"h", 5, 2, 0⟩)], 2⟩ :=
  ⟨claim_C9_roundtrip.1 _, claim_C9_roundtrip.2 _ (by decide)⟩

theorem alookup_ainsert_self {κ α : Type} [DecidableEq κ] :
    ∀ (l : List (κ × α)) (k : κ) (a : α),
      alookup (ainsert l k a) k = some a := by
  intro l
  induction l with
  | nil => intro k a; simp [ainsert, alookup]
  | cons kv t ih =>
    intro k a
    by_cases hk : kv.1 = k
    · simp [ainsert, if_pos hk, alookup]
    · simp only [ainsert, if_neg hk, alookup, if_neg hk]
      exact ih k a

theorem alookup_ainsert_ne {κ α : Type} [DecidableEq κ] :
    ∀ (l : List (κ × α)) (k k' : κ) (a : α), k' ≠ k →
      alookup (ainsert l k a) k' = alookup l k' := by
  intro l
  induction l with
  | nil =>
    intro k k' a hne
    simp [ainsert, alookup, if_neg (Ne.symm hne)]
  | cons kv t ih =>
    intro k k' a hne
    by_cases hk : kv.1 = k
    · have hk' : ¬ k = k' := Ne.symm hne
      simp only [ainsert, if_pos hk, alookup, if_neg hk']
      rw [if_neg (fun he => hk' (hk ▸ he))]
    · by_cases hk2 : kv.1 = k'
      · simp [ainsert, if_neg hk, alookup, if_pos hk2]
      · simp only [ainsert, if_neg hk, alookup, if_neg hk2]
        exact ih k k' a hne

theorem ainsert_mem {κ α : Type} [DecidableEq κ] :
    ∀ (l : List (κ × α)) (k : κ) (a : α) (pm : κ × α),
      pm ∈ ainsert l k a → pm = (k, a) ∨ pm ∈ l := by
  intro l
  induction l with
  | nil => intro k a pm h; simp [ainsert] at h; exact Or.inl h
  | cons kv t ih =>
    intro k a pm h
    by_cases hk : kv.1 = k
    · rw [ainsert, if_pos hk] at h
      rcases List.mem_cons.1 h with rfl | hm
      · exact Or.inl rfl
      · exact Or.inr (List.mem_cons_of_mem _ hm)
    · rw [ainsert, if_neg hk] at h
      rcases List.mem_cons.1 h with rfl | hm
      · exact Or.inr (List.mem_cons_self _ _)
      · rcases ih k a pm hm with h1 | h2
        · exact Or.inl h1
        · exact Or.inr (List.mem_cons_of_mem _ h2)

theorem ainsert_mem_of_nodup {κ α : Type} [DecidableEq κ] :
    ∀ (l : List (κ × α)) (k : κ) (a : α) (pm : κ × α),
      (l.map Prod.fst).Nodup → pm ∈ ainsert l k a →
      pm = (k, a) ∨ (pm ∈ l ∧ pm.1 ≠ k) := by
  intro l
  induction l with
  | nil => intro k a pm _ h; simp [ainsert] at h; exact Or.inl h
  | cons kv t ih =>
    intro k a pm hnd h
    simp only [List.map_cons, List.nodup_cons] at hnd
    by_cases hk : kv.1 = k
    · rw [ainsert, if_pos hk] at h
      rcases List.mem_cons.1 h with rfl | hm
      · exact Or.inl rfl
      · refine Or.inr ⟨List.mem_cons_of_mem _ hm, fun he => hnd.1 ?_⟩
        rw [hk, ← he]
        exact List.mem_map_of_mem Prod.fst hm
    · rw [ainsert, if_neg hk] at h
      rcases List.mem_cons.1 h with rfl | hm
      · exact Or.inr ⟨List.mem_cons_self _ _, hk⟩
      · rcases ih k a pm hnd.2 hm with h1 | h2
        · exact Or.inl h1
        · exact Or.inr ⟨List.mem_cons_of_mem _ h2.1, h2.2⟩

theorem ainsert_keys {κ α : Type} [DecidableEq κ] :
    ∀ (l : List (κ × α)) (k : κ) (a : α),
      (ainsert l k a).map Prod.fst =
        if k ∈ l.map Prod.fst then l.map Prod.fst
        else l.map Prod.fst ++ [k] := by
  intro l
  induction l with
  | nil => intro k a; simp [ainsert]
  | cons kv t ih =>
    intro k a
    by_cases hk : kv.1 = k
    · rw [ainsert, if_pos hk]
      rw [if_pos (by simp [hk])]
      simp [hk]
    · rw [ainsert, if_neg hk]
      by_cases hmem : k ∈ t.map Prod.fst
      · rw [if_pos (by simp [hmem])]
        simp only [List.map_cons, ih k a, if_pos hmem]
      · have hnk : k ≠ kv.1 := fun he => hk he.symm
        rw [if_neg (by simp [hmem, hnk])]
        simp only [List.map_cons, ih k a, if_neg hmem, List.cons_append]

theorem ainsert_keys_nodup {κ α : Type} [DecidableEq κ]
    (l : List (κ × α)) (k : κ) (a : α) (h : (l.map Prod.fst).Nodup) :
    ((ainsert l k a).map Prod.fst).Nodup := by
  rw [ainsert_keys]
  split
  · exact h
  · next hmem =>
    simp [List.nodup_append, h, hmem]

theorem alookup_mem {κ α : Type} [DecidableEq κ] :
    ∀ (l : List (κ × α)) (k : κ) (a : α),
      alookup l k = some a → (k, a) ∈ l := by
  intro l
  induction l with
  | nil => intro k a h; simp [alookup] at h
  | cons kv t ih =>
    intro k a h
    rw [alookup] at h
    split at h
    · next he =>
      cases h
      rw [← he]
      exact List.mem_cons_self _ _
    · exact List.mem_cons_of_mem _ (ih k a h)

theorem alookup_mem_keys {κ α : Type} [DecidableEq κ]
    (l : List (κ × α)) (k : κ) (a : α) (h : alookup l k = some a) :
    k ∈ l.map Prod.fst :=
  List.mem_map_of_mem Prod.fst (alookup_mem l k a h)

theorem storeDelete_lookup (ids : List Nat) (i : Nat) (h : i ∉ ids) :
    ∀ S : Store, storeLookup (storeDelete S ids) i = storeLookup S i := by
  intro S
  induction S with
  | nil => rfl
  | cons jp t ih =>
    by_cases hj : jp.1 ∈ ids
    · have hji : ¬ jp.1 = i := fun he => h (he ▸ hj)
      simp only [storeDelete, List.filter_cons, decide_eq_true_eq] at *
      rw [if_neg (by simpa using hj)]
      simp only [storeLookup, alookup, if_neg hji]
      exact ih
    · simp only [storeDelete, List.filter_cons, decide_eq_true_eq] at *
      rw [if_pos (by simpa using hj)]
      by_cases hji : jp.1 = i
      · simp [storeLookup, alookup, if_pos hji]
      · simp only [storeLookup, alookup, if_neg hji]
        exact ih

theorem storeUpsert_lookup_not_mem :
    ∀ (pts : List (Nat × ChunkPayload)) (S : Store) (i : Nat),
      i ∉ pts.map Prod.fst →
      storeLookup (storeUpsert S pts) i = storeLookup S i := by
  intro pts
  induction pts with
  | nil => intro S i _; rfl
  | cons jp rest ih =>
    intro S i h
    simp only [List.map_cons, List.mem_cons] at h
    push_neg at h
    show storeLookup (storeUpsert (ainsert S jp.1 jp.2) rest) i = _
    rw [ih _ i h.2]
    exact alookup_ainsert_ne S jp.1 i jp.2 h.1

theorem storeUpsert_lookup_mem :
    ∀ (pts : List (Nat × ChunkPayload)) (S : Store) (i : Nat)
      (pl : ChunkPayload), (pts.map Prod.fst).Nodup → (i, pl) ∈ pts →
      storeLookup (storeUpsert S pts) i = some pl := by
  intro pts
  induction pts with
  | nil => intro S i pl _ h; simp at h
  | cons jp rest ih =>
    intro S i pl hnd h
    simp only [List.map_cons, List.nodup_cons] at hnd
    rcases List.mem_cons.1 h with he | hm
    · subst he
      show storeLookup (storeUpsert (ainsert S i pl) rest) i = some pl
      rw [storeUpsert_lookup_not_mem rest _ i (by simpa using hnd.1)]
      exact alookup_ainsert_self S i pl
    · exact ih (ainsert S jp.1 jp.2) i pl hnd.2 hm

theorem storeDelete_nil (S : Store) : storeDelete S [] = S := by
  simp [storeDelete]

theorem storeDelete_comm (S : Store) (a b : List Nat) :
    storeDelete (storeDelete S a) b = storeDelete (storeDelete S b) a := by
  simp only [storeDelete, List.filter_filter]
  congr 1
  funext ip
  rw [Bool.and_comm]

theorem scanAll_append (cfg : Config) (hashFn : List Nat → String)
    (fi : FileIndex) :
    ∀ (l1 l2 : List FsEntry) (s : ScanSt),
      scanAll cfg hashFn fi (l1 ++ l2) s =
        (scanAll cfg hashFn fi l1 s).bind
          (fun s' => scanAll cfg hashFn fi l2 s') := by
  intro l1
  induction l1 with
  | nil => intro l2 s; simp [scanAll]
  | cons e rest ih =>
    intro l2 s
    show scanAll cfg hashFn fi (e :: (rest ++ l2)) s = _
    rw [scanAll]
    cases hs : scanStep cfg hashFn fi s e with
    | none => rw [scanAll, hs]; rfl
    | some s' => rw [scanAll, hs]; exact ih l2 s'

theorem procAll_append {E : Type} (cfg : Config)
    (embed : List (List Char) → Option (List E)) :
    ∀ (l1 l2 : List (FsEntry × String)) (s : ProcSt),
      procAll cfg embed (l1 ++ l2) s =
        (procAll cfg embed l1 s).bind
          (fun s' => procAll cfg embed l2 s') := by
  intro l1
  induction l1 with
  | nil => intro l2 s; simp [procAll]
  | cons eh rest ih =>
    intro l2 s
    show procAll cfg embed (eh :: (rest ++ l2)) s = _
    rw [procAll]
    cases hs : procStep cfg embed s eh with
    | none => rw [procAll, hs]; rfl
    | some s' => rw [procAll, hs]; exact ih l2 s'

/-- The scan loop never reads the accumulated stats or queue: shifting the
initial stats by `d` and prefixing the initial queue with `q0` shifts the
result the same way. -/
theorem scanStep_shift (cfg : Config) (hashFn : List Nat → String)
    (fi : FileIndex) (e : FsEntry) (t d : IndexStats) (S : Store)
    (q0 q : List (FsEntry × String)) :
    scanStep cfg hashFn fi ⟨IndexStats.add t d, S, q0 ++ q⟩ e =
      (scanStep cfg hashFn fi ⟨t, S, q⟩ e).map
        (fun s => ⟨IndexStats.add s.stats d, s.store, q0 ++ s.queued⟩) := by
  simp only [scanStep]
  repeat' split
  all_goals try rfl
  all_goals
    simp [Option.map_some', Option.map_none', Option.some.injEq,
      ScanSt.mk.injEq, IndexStats.add, IndexStats.mk.injEq,
      List.append_assoc]
  all_goals omega

theorem scanAll_shift (cfg : Config) (hashFn : List Nat → String)
    (fi : FileIndex) :
    ∀ (l : List FsEntry) (t d : IndexStats) (S : Store)
      (q0 q : List (FsEntry × String)),
      scanAll cfg hashFn fi l ⟨IndexStats.add t d, S, q0 ++ q⟩ =
        (scanAll cfg hashFn fi l ⟨t, S, q⟩).map
          (fun s => ⟨IndexStats.add s.stats d, s.store, q0 ++ s.queued⟩) := by
  intro l
  induction l with
  | nil => intro t d S q0 q; simp [scanAll]
  | cons e rest ih =>
    intro t d S q0 q
    rw [scanAll, scanAll, scanStep_shift]
    cases hs : scanStep cfg hashFn fi ⟨t, S, q⟩ e with
    | none => rfl
    | some s' =>
      simp only [Option.map_some']
      exact ih s'.stats d s'.store q0 s'.queued

/-- The scan loop acts on the store only through deletes, which commute:
running it on a store with some ids already deleted deletes the same ids
from its result. -/
theorem scanStep_delete (cfg : Config) (hashFn : List Nat → String)
    (fi : FileIndex) (e : FsEntry) (t : IndexStats) (S : Store)
    (D : List Nat) (q : List (FsEntry × String)) :
    scanStep cfg hashFn fi ⟨t, storeDelete S D, q⟩ e =
      (scanStep cfg hashFn fi ⟨t, S, q⟩ e).map
        (fun s => ⟨s.stats, storeDelete s.store D, s.queued⟩) := by
  simp only [scanStep]
  repeat' split
  all_goals simp only [Option.map_some', Option.map_none']
  all_goals rw [storeDelete_comm]

theorem scanAll_delete (cfg : Config) (hashFn : List Nat → String)
    (fi : FileIndex) :
    ∀ (l : List FsEntry) (t : IndexStats) (S : Store) (D : List Nat)
      (q : List (FsEntry × String)),
      scanAll cfg hashFn fi l ⟨t, storeDelete S D, q⟩ =
        (scanAll cfg hashFn fi l ⟨t, S, q⟩).map
          (fun s => ⟨s.stats, storeDelete s.store D, s.queued⟩) := by
  intro l
  induction l with
  | nil => intro t S D q; simp [scanAll]
  | cons e rest ih =>
    intro t S D q
    rw [scanAll, scanAll, scanStep_delete]
    cases hs : scanStep cfg hashFn fi ⟨t, S, q⟩ e with
    | none => rfl
    | some s' =>
      simp only [Option.map_some']
      exact ih s'.stats s'.store D s'.queued

theorem procStep_shift {E : Type} (cfg : Config)
    (embed : List (List Char) → Option (List E))
    (eh : FsEntry × String) (t d : IndexStats) (fi : FileIndex)
    (S : Store) :
    procStep cfg embed ⟨IndexStats.add t d, fi, S⟩ eh =
      (procStep cfg embed ⟨t, fi, S⟩ eh).map
        (fun s => ⟨IndexStats.add s.stats d, s.fi, s.store⟩) := by
  simp only [procStep]
  cases index_file cfg embed fi S eh.1 eh.2 with
  | crash => rfl
  | err =>
    simp only [Option.map_some']
    congr 1
    simp [IndexStats.add, IndexStats.mk.injEq]
    omega
  | ok a =>
    obtain ⟨n, fi', store'⟩ := a
    simp only [Option.map_some']
    congr 1
    simp [IndexStats.add, IndexStats.mk.injEq]
    omega

theorem procAll_shift {E : Type} (cfg : Config)
    (embed : List (List Char) → Option (List E)) :
    ∀ (l : List (FsEntry × String)) (t d : IndexStats) (fi : FileIndex)
      (S : Store),
      procAll cfg embed l ⟨IndexStats.add t d, fi, S⟩ =
        (procAll cfg embed l ⟨t, fi, S⟩).map
          (fun s => ⟨IndexStats.add s.stats d, s.fi, s.store⟩) := by
  intro l
  induction l with
  | nil => intro t d fi S; simp [procAll]
  | cons eh rest ih =>
    intro t d fi S
    rw [procAll, procAll, procStep_shift]
    cases hs : procStep cfg embed ⟨t, fi, S⟩ eh with
    | none => rfl
    | some s' =>
      simp only [Option.map_some']
      exact ih s'.stats d s'.fi s'.store

theorem IndexStats.init_add (t : IndexStats) :
    IndexStats.add IndexStats.init t = t := by
  simp [IndexStats.add, IndexStats.init]

/-- Normal form of a scan: an arbitrary initial state factors through the
run from zero stats and an empty queue. -/
theorem scanAll_canon (cfg : Config) (hashFn : List Nat → String)
    (fi : FileIndex) (l : List FsEntry) (t : IndexStats) (S : Store)
    (q : List (FsEntry × String)) :
    scanAll cfg hashFn fi l ⟨t, S, q⟩ =
      (scanAll cfg hashFn fi l ⟨IndexStats.init, S, []⟩).map
        (fun s => ⟨IndexStats.add s.stats t, s.store, q ++ s.queued⟩) := by
  have h := scanAll_shift cfg hashFn fi l IndexStats.init t S q []
  rw [IndexStats.init_add, List.append_nil] at h
  exact h

/-- Normal form of the processing phase. -/
theorem procAll_canon {E : Type} (cfg : Config)
    (embed : List (List Char) → Option (List E))
    (l : List (FsEntry × String)) (t : IndexStats) (fi : FileIndex)
    (S : Store) :
    procAll cfg embed l ⟨t, fi, S⟩ =
      (procAll cfg embed l ⟨IndexStats.init, fi, S⟩).map
        (fun s => ⟨IndexStats.add s.stats t, s.fi, s.store⟩) := by
  have h := procAll_shift cfg embed l IndexStats.init t fi S
  rw [IndexStats.init_add] at h
  exact h

/-- Unfolding of `index` into its two phases. -/
theorem index_eq {E : Type} (cfg : Config) (hashFn : List Nat → String)
    (embed : List (List Char) → Option (List E)) (entries : List FsEntry)
    (fi : FileIndex) (store : Store) :
    index cfg hashFn embed entries fi store =
      (scanAll cfg hashFn fi entries ⟨IndexStats.init, store, []⟩).bind
        (fun sc => (procAll cfg embed sc.queued ⟨sc.stats, fi, sc.store⟩).map
          (fun p => ⟨p.stats, p.fi, p.store, manifestBytes p.fi⟩)) := by
  cases h1 : scanAll cfg hashFn fi entries ⟨IndexStats.init, store, []⟩ with
  | none => simp [index, h1]
  | some sc =>
    cases h2 : procAll cfg embed sc.queued ⟨sc.stats, fi, sc.store⟩ with
    | none => simp [index, h1, h2]
    | some p => simp [index, h1, h2]

/-- Variant of `scanAll_canon` for an arbitrary state value. -/
theorem scanAll_canon' (cfg : Config) (hashFn : List Nat → String)
    (fi : FileIndex) (l : List FsEntry) (s : ScanSt) :
    scanAll cfg hashFn fi l s =
      (scanAll cfg hashFn fi l ⟨IndexStats.init, s.store, []⟩).map
        (fun x => ⟨IndexStats.add x.stats s.stats, x.store,
          s.queued ++ x.queued⟩) := by
  obtain ⟨t, S, q⟩ := s
  exact scanAll_canon cfg hashFn fi l t S q

/-- Variant of `procAll_canon` for an arbitrary state value. -/
theorem procAll_canon' {E : Type} (cfg : Config)
    (embed : List (List Char) → Option (List E))
    (l : List (FsEntry × String)) (s : ProcSt) :
    procAll cfg embed l s =
      (procAll cfg embed l ⟨IndexStats.init, s.fi, s.store⟩).map
        (fun x => ⟨IndexStats.add x.stats s.stats, x.fi, x.store⟩) := by
  obtain ⟨t, fi, S⟩ := s
  exact procAll_canon cfg embed l t fi S

/-- A text-extraction, embedding or upsert failure makes `index_file`
return a caught error, whatever the current manifest and store are. -/
theorem index_file_err {E : Type} (cfg : Config)
    (embed : List (List Char) → Option (List E)) (e : FsEntry) (h : String)
    (hfail : e.text = none ∨
      (∃ t, e.text = some t ∧ t ≠ [] ∧ ∃ cs,
        extract_chunks e.ext e.parsed t cfg.chunk_size cfg.chunk_overlap =
          some cs ∧ cs ≠ [] ∧ embed (cs.map Chunk.text) = none) ∨
      (∃ t, e.text = some t ∧ t ≠ [] ∧ ∃ cs,
        extract_chunks e.ext e.parsed t cfg.chunk_size cfg.chunk_overlap =
          some cs ∧ cs ≠ [] ∧ ∃ vs, embed (cs.map Chunk.text) = some vs ∧
        vs ≠ [] ∧ e.upsertOk = false)) :
    ∀ (fi : FileIndex) (store : Store),
      index_file cfg embed fi store e h = .err := by
  intro fi store
  rcases hfail with ht | ⟨t, ht, htne, cs, hex, hcsne, hemb⟩ |
    ⟨t, ht, htne, cs, hex, hcsne, vs, hemb, hvsne, hup⟩
  · simp [index_file, ht]
  · simp [index_file, ht, List.isEmpty_iff, htne, hex, hcsne, hemb]
  · rcases cs with _ | ⟨c0, cs'⟩
    · exact absurd rfl hcsne
    · rcases vs with _ | ⟨v0, vs'⟩
      · exact absurd rfl hvsne
      · simp only [List.map_cons] at hemb
        simp [index_file, ht, List.isEmpty_iff, htne, hex, hemb, hup,
          List.enumFrom]

/-- Claim C2 is false as stated: a file whose metadata cannot be read is
not caught.  `Indexer::index` propagates the `fs::metadata` error with
`?` (index.rs:172), so the run returns `Err` instead of counting the file
as skipped and continuing. -/
theorem claim_C2_counterexample :
    index ⟨"m", 768, 2000, 200, 5, [], [], []⟩ (fun b => toString b.length)
      (fun ts => some (ts.map (fun _ => ())))
      [⟨"a.txt", some "txt", false, false, none, some [7], some ['x'],
        none, 0, true, true⟩] ⟨[], 0⟩ [] = none := by
  rfl

/-- Common tail of the caught-failure frame: once the scan has queued the
failing file, the rest of the run equals the run without it plus one
skipped count. -/
theorem index_caught_tail {E : Type} (cfg : Config)
    (hashFn : List Nat → String)
    (embed : List (List Char) → Option (List E)) (l2 : List FsEntry)
    (e : FsEntry) (hh : String) (fi : FileIndex) (t : IndexStats)
    (S' : Store) (q : List (FsEntry × String))
    (hif : ∀ (fi' : FileIndex) (store' : Store),
      index_file cfg embed fi' store' e hh = .err) :
    (scanAll cfg hashFn fi l2
        ⟨{ t with files_scanned := t.files_scanned + 1 }, S',
          q ++ [(e, hh)]⟩).bind
      (fun sc => (procAll cfg embed sc.queued ⟨sc.stats, fi, sc.store⟩).map
        (fun p => (⟨p.stats, p.fi, p.store, manifestBytes p.fi⟩ :
          IndexResult))) =
    ((scanAll cfg hashFn fi l2 ⟨t, S', q⟩).bind
      (fun sc => (procAll cfg embed sc.queued
          ⟨sc.stats, fi, sc.store⟩).map
        (fun p => (⟨p.stats, p.fi, p.store, manifestBytes p.fi⟩ :
          IndexResult)))).map
      (fun r => (⟨{ r.stats with
          files_scanned := r.stats.files_scanned + 1,
          files_skipped := r.stats.files_skipped + 1 },
        r.fileIndex, r.store, r.savedManifest⟩ : IndexResult)) := by
  rw [scanAll_canon cfg hashFn fi l2
      ({ t with files_scanned := t.files_scanned + 1 }) S' (q ++ [(e, hh)]),
    scanAll_canon cfg hashFn fi l2 t S' q]
  cases h2 : scanAll cfg hashFn fi l2 ⟨IndexStats.init, S', []⟩ with
  | none => rfl
  | some sb =>
    simp only [Option.map_some', Option.some_bind]
    rw [List.append_assoc, List.singleton_append, procAll_append,
      procAll_append]
    rw [procAll_canon cfg embed q
        (IndexStats.add sb.stats
          { t with files_scanned := t.files_scanned + 1 }) fi sb.store,
      procAll_canon cfg embed q (IndexStats.add sb.stats t) fi sb.store]
    cases h3 : procAll cfg embed q ⟨IndexStats.init, fi, sb.store⟩ with
    | none => rfl
    | some p1 =>
      simp only [Option.map_some', Option.some_bind]
      have hproc : procAll cfg embed ((e, hh) :: sb.queued)
          ⟨IndexStats.add p1.stats
            (IndexStats.add sb.stats
              { t with files_scanned := t.files_scanned + 1 }),
            p1.fi, p1.store⟩ =
          procAll cfg embed sb.queued
            ⟨{ IndexStats.add p1.stats
                (IndexStats.add sb.stats
                  { t with files_scanned := t.files_scanned + 1 }) with
              files_skipped :=
                (IndexStats.add p1.stats
                  (IndexStats.add sb.stats
                    { t with files_scanned :=
                        t.files_scanned + 1 })).files_skipped + 1 },
              p1.fi, p1.store⟩ := by
        rw [procAll, procStep, hif]
      rw [hproc,
        procAll_canon cfg embed sb.queued _ p1.fi p1.store,
        procAll_canon cfg embed sb.queued
          (IndexStats.add p1.stats
            (IndexStats.add sb.stats t)) p1.fi p1.store]
      cases h4 : procAll cfg embed sb.queued
          ⟨IndexStats.init, p1.fi, p1.store⟩ with
      | none => rfl
      | some p2 =>
        simp only [Option.map_some', Option.some.injEq,
          IndexResult.mk.injEq, IndexStats.add, IndexStats.mk.injEq,
          and_true, true_and]
        try omega

/-- Amended claim C2: for every candidate file — new or changed — a
per-file failure at content read, text extraction, embedding, or upsert
is caught, increments `files_skipped` by one for that file, and does not
abort the run, which continues with the remaining files exactly as the
run without that file (on the store from which the changed file's stale
ids were already deleted during the scan); a metadata read failure, by
contrast, aborts the run (see the counterexample), as does a failing
delete of a changed file's stale ids. -/
theorem claim_C2_caught_failures {E : Type} (cfg : Config)
    (hashFn : List Nat → String)
    (embed : List (List Char) → Option (List E)) (l1 l2 : List FsEntry)
    (e : FsEntry) (fi : FileIndex) (store : Store)
    (hdir : e.isDir = false) (hqs : e.inQs = false)
    (hidx : should_index e.ext cfg = true)
    (hmeta : ∃ n, e.meta = some n ∧ n ≤ cfg.max_file_size)
    (hfail : CaughtFailure cfg hashFn embed fi e) :
    index cfg hashFn embed (l1 ++ e :: l2) fi store =
      (index cfg hashFn embed (l1 ++ l2) fi
          (storeDelete store (scanDeletes hashFn fi e))).map
        (fun r => ⟨{ r.stats with
            files_scanned := r.stats.files_scanned + 1,
            files_skipped := r.stats.files_skipped + 1 },
          r.fileIndex, r.store, r.savedManifest⟩) := by
  obtain ⟨nsz, hm, hsz⟩ := hmeta
  rw [index_eq, index_eq, scanAll_append, scanAll_append,
    scanAll_delete cfg hashFn fi l1 IndexStats.init store
      (scanDeletes hashFn fi e) []]
  cases h1 : scanAll cfg hashFn fi l1 ⟨IndexStats.init, store, []⟩ with
  | none => rfl
  | some s1 =>
    simp only [Option.map_some', Option.some_bind]
    cases hc : e.content with
    | none =>
      -- the content read fails: the file is skipped during the scan
      have hD : scanDeletes hashFn fi e = [] := by
        simp [scanDeletes, hc]
      rw [hD, storeDelete_nil]
      have hscan : scanAll cfg hashFn fi (e :: l2) s1 =
          scanAll cfg hashFn fi l2
            ⟨{ s1.stats with
              files_scanned := s1.stats.files_scanned + 1,
              files_skipped := s1.stats.files_skipped + 1 },
              s1.store, s1.queued⟩ := by
        have hstep : scanStep cfg hashFn fi s1 e =
            some ⟨{ s1.stats with
              files_scanned := s1.stats.files_scanned + 1,
              files_skipped := s1.stats.files_skipped + 1 },
              s1.store, s1.queued⟩ := by
          simp [scanStep, hdir, hqs, hidx, hm, hc, Nat.not_lt.2 hsz]
        rw [scanAll, hstep]
      rw [hscan,
        scanAll_canon cfg hashFn fi l2
          ({ s1.stats with
            files_scanned := s1.stats.files_scanned + 1,
            files_skipped := s1.stats.files_skipped + 1 })
          s1.store s1.queued,
        scanAll_canon cfg hashFn fi l2 s1.stats s1.store s1.queued]
      cases h2 : scanAll cfg hashFn fi l2 ⟨IndexStats.init, s1.store, []⟩ with
      | none => rfl
      | some sb =>
        simp only [Option.map_some', Option.some_bind]
        rw [procAll_canon cfg embed (s1.queued ++ sb.queued)
            (IndexStats.add sb.stats
              { s1.stats with
                files_scanned := s1.stats.files_scanned + 1,
                files_skipped := s1.stats.files_skipped + 1 }) fi sb.store,
          procAll_canon cfg embed (s1.queued ++ sb.queued)
            (IndexStats.add sb.stats s1.stats) fi sb.store]
        cases h3 : procAll cfg embed (s1.queued ++ sb.queued)
            ⟨IndexStats.init, fi, sb.store⟩ with
        | none => rfl
        | some p =>
          simp only [Option.map_some', Option.some.injEq,
            IndexResult.mk.injEq, IndexStats.add, IndexStats.mk.injEq,
            and_true, true_and]
          try omega
    | some b =>
      -- the file is hashed, queued, and `index_file` fails caught
      rcases hfail with hcontent | ⟨b', hb', hlk, hmode⟩
      · rw [hc] at hcontent
        cases hcontent
      rw [hc] at hb'
      injection hb' with hbb
      subst hbb
      have hif := index_file_err cfg embed e (hashFn b) hmode
      cases halk : alookup fi.files e.relPath with
      | none =>
        have hD : scanDeletes hashFn fi e = [] := by
          simp [scanDeletes, hc, halk]
        rw [hD, storeDelete_nil]
        have hscan : scanAll cfg hashFn fi (e :: l2) s1 =
            scanAll cfg hashFn fi l2
              ⟨{ s1.stats with
                files_scanned := s1.stats.files_scanned + 1 },
                s1.store, s1.queued ++ [(e, hashFn b)]⟩ := by
          have hstep : scanStep cfg hashFn fi s1 e =
              some ⟨{ s1.stats with
                files_scanned := s1.stats.files_scanned + 1 },
                s1.store, s1.queued ++ [(e, hashFn b)]⟩ := by
            simp [scanStep, hdir, hqs, hidx, hm, hc, halk,
              Nat.not_lt.2 hsz]
          rw [scanAll, hstep]
        rw [hscan]
        exact index_caught_tail cfg hashFn embed l2 e (hashFn b) fi
          s1.stats s1.store s1.queued hif
      | some ex =>
        obtain ⟨hne, hdel⟩ := hlk ex halk
        have hD : scanDeletes hashFn fi e =
            List.range' ex.start_id ex.chunk_count := by
          simp [scanDeletes, hc, halk, hne]
        have hstep : scanStep cfg hashFn fi s1 e =
            some ⟨{ s1.stats with
              files_scanned := s1.stats.files_scanned + 1 },
              storeDelete s1.store
                (List.range' ex.start_id ex.chunk_count),
              s1.queued ++ [(e, hashFn b)]⟩ := by
          rcases hdel with hcc | hdd
          · simp [scanStep, hdir, hqs, hidx, hm, hc, halk, hne,
              Nat.not_lt.2 hsz, hcc]
          · simp [scanStep, hdir, hqs, hidx, hm, hc, halk, hne,
              Nat.not_lt.2 hsz, hdd]
        have hscan : scanAll cfg hashFn fi (e :: l2) s1 =
            scanAll cfg hashFn fi l2
              ⟨{ s1.stats with
                files_scanned := s1.stats.files_scanned + 1 },
                storeDelete s1.store
                  (List.range' ex.start_id ex.chunk_count),
                s1.queued ++ [(e, hashFn b)]⟩ := by
          rw [scanAll, hstep]
        rw [hscan, hD]
        exact index_caught_tail cfg hashFn embed l2 e (hashFn b) fi
          s1.stats
          (storeDelete s1.store (List.range' ex.start_id ex.chunk_count))
          s1.queued hif

/-- Witness for the amended C2: a changed file (its manifest hash
differs) whose text extraction fails is counted as scanned and skipped,
and the run equals the run without that file, started on the store with
the file's stale id deleted, plus the two counters. -/
theorem claim_C2_witness :
    index ⟨"m", 768, 2000, 200, 5, [], [], []⟩ (fun b => toString b.length)
        (fun ts => some (ts.map (fun _ => ())))
        [⟨"a.txt", some "txt", false, false, some 1, some [7], none,
          none, 0, true, true⟩]
        ⟨[("a.txt", ⟨"3", 7, 1, 0⟩)], 1⟩
        [(0, ⟨"a.txt", 0, 1, 1, ['x'], "3"⟩)] =
      (index ⟨"m", 768, 2000, 200, 5, [], [], []⟩
          (fun b => toString b.length)
          (fun ts => some (ts.map (fun _ => ()))) []
          ⟨[("a.txt", ⟨"3", 7, 1, 0⟩)], 1⟩
          (storeDelete [(0, ⟨"a.txt", 0, 1, 1, ['x'], "3"⟩)]
            (scanDeletes (fun b => toString b.length)
              ⟨[("a.txt", ⟨"3", 7, 1, 0⟩)], 1⟩
              ⟨"a.txt", some "txt", false, false, some 1, some [7], none,
                none, 0, true, true⟩))).map
        (fun r => ⟨{ r.stats with
            files_scanned := r.stats.files_scanned + 1,
            files_skipped := r.stats.files_skipped + 1 },
          r.fileIndex, r.store, r.savedManifest⟩) :=
  claim_C2_caught_failures ⟨"m", 768, 2000, 200, 5, [], [], []⟩
    (fun b => toString b.length) (fun ts => some (ts.map (fun _ => ())))
    [] []
    ⟨"a.txt", some "txt", false, false, some 1, some [7], none, none, 0,
      true, true⟩
    ⟨[("a.txt", ⟨"3", 7, 1, 0⟩)], 1⟩
    [(0, ⟨"a.txt", 0, 1, 1, ['x'], "3"⟩)]
    rfl rfl (by decide) ⟨1, rfl, by decide⟩
    (Or.inr ⟨[7], rfl, by
      intro ex hex
      rw [show alookup [("a.txt", (⟨"3", 7, 1, 0⟩ : FileMetadata))]
          "a.txt" = some ⟨"3", 7, 1, 0⟩ from rfl,
        Option.some.injEq] at hex
      subst hex
      exact ⟨by decide, Or.inr rfl⟩,
      Or.inl rfl⟩)

theorem ainsert_pairwise {κ α : Type} [DecidableEq κ]
    (R : (κ × α) → (κ × α) → Prop) :
    ∀ (l : List (κ × α)) (k : κ) (a : α),
      l.Pairwise R → (∀ x ∈ l, R x (k, a) ∧ R (k, a) x) →
      (ainsert l k a).Pairwise R := by
  intro l
  induction l with
  | nil => intro k a _ _; simp [ainsert]
  | cons x t ih =>
    intro k a hpw hall
    obtain ⟨hx, ht⟩ := List.pairwise_cons.1 hpw
    by_cases hk : x.1 = k
    · rw [ainsert, if_pos hk]
      refine List.pairwise_cons.2 ⟨?_, ht⟩
      intro y hy
      exact (hall y (List.mem_cons_of_mem _ hy)).2
    · rw [ainsert, if_neg hk]
      refine List.pairwise_cons.2 ⟨?_, ?_⟩
      · intro y hy
        rcases ainsert_mem _ _ _ _ hy with rfl | hm
        · exact (hall x (List.mem_cons_self _ _)).1
        · exact hx y hm
      · exact ih k a ht (fun y hy => hall y (List.mem_cons_of_mem _ hy))

/-- Committing a file (the manifest update of index.rs:292-309) preserves
the manifest invariant: the fresh range `[next_id, next_id + n)` lies
beyond every live range. -/
theorem ManifestInv_commit (M : FileIndex) (p h : String) (mt n : Nat)
    (hinv : ManifestInv M) :
    ManifestInv ⟨ainsert M.files p ⟨h, mt, n, M.next_id⟩,
      M.next_id + n⟩ := by
  obtain ⟨files, nid⟩ := M
  obtain ⟨hnd, hbound, hpw⟩ := hinv
  refine ⟨ainsert_keys_nodup _ _ _ hnd, ?_, ?_⟩
  · intro pm hpm
    rcases ainsert_mem _ _ _ _ hpm with rfl | hm
    · simp
    · have := hbound pm hm
      simp only at this ⊢
      omega
  · refine ainsert_pairwise _ files p _ hpw ?_
    intro x hx
    have hb := hbound x hx
    simp only at hb
    exact ⟨Or.inl hb, Or.inr hb⟩

/-- Shape of a successful `index_file`: either nothing was committed
(empty text or no chunks, `n = 0`), or the file was committed with the
fresh range `[next_id, next_id + n)`. -/
theorem index_file_ok_manifest {E : Type} (cfg : Config)
    (embed : List (List Char) → Option (List E)) (fi : FileIndex)
    (store : Store) (e : FsEntry) (h : String) (n : Nat)
    (fi' : FileIndex) (st' : Store)
    (hok : index_file cfg embed fi store e h = .ok (n, fi', st')) :
    (n = 0 ∧ fi' = fi ∧ st' = store) ∨
    fi' = ⟨ainsert fi.files e.relPath ⟨h, e.mtime, n, fi.next_id⟩,
      fi.next_id + n⟩ := by
  simp only [index_file] at hok
  split at hok
  · cases hok
  · split at hok
    · simp only [FRes.ok.injEq, Prod.mk.injEq] at hok
      obtain ⟨hn, hfi, hst⟩ := hok
      exact Or.inl ⟨hn.symm, hfi.symm, hst.symm⟩
    · split at hok
      · cases hok
      · split at hok
        · simp only [FRes.ok.injEq, Prod.mk.injEq] at hok
          obtain ⟨hn, hfi, hst⟩ := hok
          exact Or.inl ⟨hn.symm, hfi.symm, hst.symm⟩
        · split at hok
          · cases hok
          · split at hok
            · simp only [FRes.ok.injEq, Prod.mk.injEq] at hok
              obtain ⟨hn, hfi, hst⟩ := hok
              subst hn
              exact Or.inr hfi.symm
            · cases hok

/-- The processing phase preserves the manifest invariant and never
decreases `next_id`. -/
theorem procAll_manifest_inv {E : Type} (cfg : Config)
    (embed : List (List Char) → Option (List E)) :
    ∀ (q : List (FsEntry × String)) (s p : ProcSt),
      procAll cfg embed q s = some p → ManifestInv s.fi →
      ManifestInv p.fi ∧ s.fi.next_id ≤ p.fi.next_id := by
  intro q
  induction q with
  | nil =>
    intro s p hall hinv
    cases hall
    exact ⟨hinv, le_refl _⟩
  | cons eh rest ih =>
    intro s p hall hinv
    rw [procAll] at hall
    cases hif : index_file cfg embed s.fi s.store eh.1 eh.2 with
    | crash =>
      simp only [procStep, hif] at hall
      cases hall
    | err =>
      simp only [procStep, hif] at hall
      exact ih ⟨{ s.stats with
          files_skipped := s.stats.files_skipped + 1 }, s.fi, s.store⟩
        p hall hinv
    | ok a =>
      obtain ⟨n, fi', st'⟩ := a
      simp only [procStep, hif] at hall
      rcases index_file_ok_manifest cfg embed s.fi s.store eh.1 eh.2 n
        fi' st' hif with ⟨_, hfi, hst'⟩ | hfi
      · subst hfi
        subst hst'
        exact ih ⟨{ s.stats with
            files_indexed := s.stats.files_indexed + 1,
            chunks_created := s.stats.chunks_created + n }, s.fi, s.store⟩
          p hall hinv
      · subst hfi
        obtain ⟨hMfi, hMn⟩ := ih ⟨{ s.stats with
            files_indexed := s.stats.files_indexed + 1,
            chunks_created := s.stats.chunks_created + n },
          ⟨ainsert s.fi.files eh.1.relPath
            ⟨eh.2, eh.1.mtime, n, s.fi.next_id⟩, s.fi.next_id + n⟩, st'⟩
          p hall
          (ManifestInv_commit s.fi eh.1.relPath eh.2 eh.1.mtime n hinv)
        exact ⟨hMfi, le_trans (Nat.le_add_right _ _) hMn⟩

/-- Claim C5: every successful index run preserves the manifest
invariant — pairwise-disjoint id ranges all ending within `next_id` —
and `next_id` never decreases; each successful per-file commit advances
`next_id` by exactly that file's chunk count. -/
theorem claim_C5_manifest_invariant {E : Type} (cfg : Config)
    (hashFn : List Nat → String)
    (embed : List (List Char) → Option (List E))
    (entries : List FsEntry) (M0 : FileIndex) (S0 : Store)
    (r : IndexResult) :
    (ManifestInv M0 → index cfg hashFn embed entries M0 S0 = some r →
      ManifestInv r.fileIndex ∧ M0.next_id ≤ r.fileIndex.next_id) ∧
    (∀ (fi : FileIndex) (store : Store) (e : FsEntry) (h : String)
        (n : Nat) (fi' : FileIndex) (st' : Store),
      index_file cfg embed fi store e h = .ok (n, fi', st') →
      fi'.next_id = fi.next_id + n) := by
  constructor
  · intro hinv hrun
    rw [index_eq] at hrun
    cases h1 : scanAll cfg hashFn M0 entries ⟨IndexStats.init, S0, []⟩ with
    | none => rw [h1] at hrun; cases hrun
    | some sc =>
      rw [h1] at hrun
      simp only [Option.some_bind] at hrun
      cases h2 : procAll cfg embed sc.queued ⟨sc.stats, M0, sc.store⟩ with
      | none => rw [h2] at hrun; cases hrun
      | some p =>
        rw [h2] at hrun
        simp only [Option.map_some', Option.some.injEq] at hrun
        obtain ⟨hM, hN⟩ := procAll_manifest_inv cfg embed sc.queued
          ⟨sc.stats, M0, sc.store⟩ p h2 hinv
        rw [← hrun]
        exact ⟨hM, hN⟩
  · intro fi store e h n fi' st' hok
    rcases index_file_ok_manifest cfg embed fi store e h n fi' st' hok with
      ⟨hn, hfi, _⟩ | hfi
    · subst hn; subst hfi; rfl
    · subst hfi; rfl

/-- Witness for C5: a fresh one-file run yields a manifest satisfying the
invariant, with `next_id` advanced from 0 to 1. -/
theorem claim_C5_witness :
    ManifestInv ⟨[("a.txt", ⟨"3", 7, 1, 0⟩)], 1⟩ ∧
    (⟨[], 0⟩ : FileIndex).next_id ≤
      (⟨[("a.txt", ⟨"3", 7, 1, 0⟩)], 1⟩ : FileIndex).next_id :=
  (claim_C5_manifest_invariant ⟨"m", 768, 2000, 200, 5, [], [], []⟩
    (fun b => toString b.length) (fun ts => some (ts.map (fun _ => ())))
    [⟨"a.txt", some "txt", false, false, some 3, some [1, 2, 3],
      some "x\ny".toList, none, 7, true, true⟩] ⟨[], 0⟩ []
    ⟨⟨1, 1, 0, 0, 1⟩, ⟨[("a.txt", ⟨"3", 7, 1, 0⟩)], 1⟩,
      [(0, ⟨"a.txt", 0, 1, 2, "x\ny".toList, "3"⟩)],
      manifestBytes ⟨[("a.txt", ⟨"3", 7, 1, 0⟩)], 1⟩⟩).1
    (by simp [ManifestInv]) (by rfl)

/-- A successful scan proves that no filtered-in candidate had a failing
metadata call (the call aborts the run with `?`). -/
theorem scanAll_some_meta (cfg : Config) (hashFn : List Nat → String)
    (fi : FileIndex) :
    ∀ (l : List FsEntry) (s s' : ScanSt),
      scanAll cfg hashFn fi l s = some s' →
      ∀ e ∈ l, e.isDir = false → e.inQs = false →
        should_index e.ext cfg = true → e.meta ≠ none := by
  intro l
  induction l with
  | nil => intro s s' _ e he; simp at he
  | cons e0 rest ih =>
    intro s s' hall e he hdir hqs hidx hmn
    rw [scanAll] at hall
    cases hstep : scanStep cfg hashFn fi s e0 with
    | none => rw [hstep] at hall; cases hall
    | some s1 =>
      rw [hstep] at hall
      rcases List.mem_cons.1 he with rfl | hm
      · simp [scanStep, hdir, hqs, hidx, hmn] at hstep
      · exact ih s1 s' hall e hm hdir hqs hidx hmn

/-- One unfolding of the scan loop. -/
theorem scanAll_cons (cfg : Config) (hashFn : List Nat → String)
    (fi : FileIndex) (e : FsEntry) (rest : List FsEntry) (s s' : ScanSt)
    (h : scanStep cfg hashFn fi s e = some s') :
    scanAll cfg hashFn fi (e :: rest) s = scanAll cfg hashFn fi rest s' := by
  rw [scanAll, h]

/-- When every hashed candidate already has a manifest entry with the
same hash, the scan queues nothing, touches no store point, and counts
exactly the hashed candidates as unchanged. -/
theorem scanAll_unchanged (cfg : Config) (hashFn : List Nat → String)
    (M : FileIndex) :
    ∀ (l : List FsEntry),
      (∀ e ∈ l, e.isDir = false → e.inQs = false →
        should_index e.ext cfg = true → e.meta ≠ none) →
      (∀ e ∈ l, ∀ b, hashedCandB cfg e = true → e.content = some b →
        ∃ ex, alookup M.files e.relPath = some ex ∧ ex.hash = hashFn b) →
      ∀ (t : IndexStats) (S : Store),
        ∃ a b, scanAll cfg hashFn M l ⟨t, S, []⟩ =
          some ⟨⟨t.files_scanned + a, t.files_indexed,
            t.files_skipped + b,
            t.files_unchanged + (l.filter (hashedCandB cfg)).length,
            t.chunks_created⟩, S, []⟩ := by
  intro l
  induction l with
  | nil =>
    intro _ _ t S
    exact ⟨0, 0, by simp [scanAll]⟩
  | cons e rest ih =>
    intro hmeta hsame t S
    have hmeta' := fun e' he' => hmeta e' (List.mem_cons_of_mem _ he')
    have hsame' := fun e' he' => hsame e' (List.mem_cons_of_mem _ he')
    by_cases hdir : e.isDir = true
    · have hcand : hashedCandB cfg e = false := by
        simp [hashedCandB, hdir]
      have hstep : scanStep cfg hashFn M ⟨t, S, []⟩ e = some ⟨t, S, []⟩ := by
        simp [scanStep, hdir]
      obtain ⟨a, b, hrest⟩ := ih hmeta' hsame' t S
      refine ⟨a, b, ?_⟩
      rw [scanAll_cons _ _ _ _ _ _ _ hstep, hrest]
      simp [List.filter_cons, hcand]
    · rw [Bool.not_eq_true] at hdir
      by_cases hqs : e.inQs = true
      · have hcand : hashedCandB cfg e = false := by
          simp [hashedCandB, hqs]
        have hstep : scanStep cfg hashFn M ⟨t, S, []⟩ e =
            some ⟨t, S, []⟩ := by
          simp [scanStep, hdir, hqs]
        obtain ⟨a, b, hrest⟩ := ih hmeta' hsame' t S
        refine ⟨a, b, ?_⟩
        rw [scanAll_cons _ _ _ _ _ _ _ hstep, hrest]
        simp [List.filter_cons, hcand]
      · rw [Bool.not_eq_true] at hqs
        by_cases hidx : should_index e.ext cfg = true
        · cases hmn : e.meta with
          | none =>
            exact absurd hmn
              (hmeta e (List.mem_cons_self _ _) hdir hqs hidx)
          | some nsz =>
            by_cases hsz : cfg.max_file_size < nsz
            · have hcand : hashedCandB cfg e = false := by
                simp [hashedCandB, hmn, Nat.not_le.2 hsz]
              have hstep : scanStep cfg hashFn M ⟨t, S, []⟩ e =
                  some ⟨{ t with
                    files_scanned := t.files_scanned + 1,
                    files_skipped := t.files_skipped + 1 }, S, []⟩ := by
                simp [scanStep, hdir, hqs, hidx, hmn, hsz]
              obtain ⟨a, b, hrest⟩ := ih hmeta' hsame' _ S
              refine ⟨a + 1, b + 1, ?_⟩
              rw [scanAll_cons _ _ _ _ _ _ _ hstep, hrest]
              simp only [List.filter_cons, hcand, Bool.false_eq_true,
                if_false, Option.some.injEq, ScanSt.mk.injEq,
                IndexStats.mk.injEq, and_true, true_and]
              omega
            · rw [Nat.not_lt] at hsz
              cases hcont : e.content with
              | none =>
                have hcand : hashedCandB cfg e = false := by
                  simp [hashedCandB, hcont]
                have hstep : scanStep cfg hashFn M ⟨t, S, []⟩ e =
                    some ⟨{ t with
                      files_scanned := t.files_scanned + 1,
                      files_skipped := t.files_skipped + 1 }, S, []⟩ := by
                  simp [scanStep, hdir, hqs, hidx, hmn, hcont,
                    Nat.not_lt.2 hsz]
                obtain ⟨a, b, hrest⟩ := ih hmeta' hsame' _ S
                refine ⟨a + 1, b + 1, ?_⟩
                rw [scanAll_cons _ _ _ _ _ _ _ hstep, hrest]
                simp only [List.filter_cons, hcand, Bool.false_eq_true,
                  if_false, Option.some.injEq, ScanSt.mk.injEq,
                  IndexStats.mk.injEq, and_true, true_and]
                omega
              | some bytes =>
                have hcand : hashedCandB cfg e = true := by
                  simp [hashedCandB, hdir, hqs, hidx, hmn, hsz, hcont]
                obtain ⟨ex, hex, hexh⟩ := hsame e (List.mem_cons_self _ _)
                  bytes hcand hcont
                have hstep : scanStep cfg hashFn M ⟨t, S, []⟩ e =
                    some ⟨{ t with
                      files_scanned := t.files_scanned + 1,
                      files_unchanged := t.files_unchanged + 1 },
                      S, []⟩ := by
                  simp [scanStep, hdir, hqs, hidx, hmn, hcont,
                    Nat.not_lt.2 hsz, hex, hexh]
                obtain ⟨a, b, hrest⟩ := ih hmeta' hsame' _ S
                refine ⟨a + 1, b, ?_⟩
                rw [scanAll_cons _ _ _ _ _ _ _ hstep, hrest]
                simp only [List.filter_cons, hcand, if_true,
                  Option.some.injEq, ScanSt.mk.injEq,
                  IndexStats.mk.injEq, List.length_cons, and_true,
                  true_and]
                omega
        · rw [Bool.not_eq_true] at hidx
          have hcand : hashedCandB cfg e = false := by
            simp [hashedCandB, hidx]
          have hstep : scanStep cfg hashFn M ⟨t, S, []⟩ e =
              some ⟨{ t with
                files_scanned := t.files_scanned + 1,
                files_skipped := t.files_skipped + 1 }, S, []⟩ := by
            simp [scanStep, hdir, hqs, hidx]
          obtain ⟨a, b, hrest⟩ := ih hmeta' hsame' _ S
          refine ⟨a + 1, b + 1, ?_⟩
          rw [scanAll_cons _ _ _ _ _ _ _ hstep, hrest]
          simp only [List.filter_cons, hcand, Bool.false_eq_true,
            if_false, Option.some.injEq, ScanSt.mk.injEq,
            IndexStats.mk.injEq, and_true, true_and]
          omega

/-- The manifest file a successful run writes is the serialization of its
final manifest. -/
theorem index_saved {E : Type} (cfg : Config)
    (hashFn : List Nat → String)
    (embed : List (List Char) → Option (List E)) (entries : List FsEntry)
    (fi : FileIndex) (store : Store) (r : IndexResult)
    (h : index cfg hashFn embed entries fi store = some r) :
    r.savedManifest = manifestBytes r.fileIndex := by
  rw [index_eq] at h
  cases h1 : scanAll cfg hashFn fi entries ⟨IndexStats.init, store, []⟩ with
  | none => rw [h1] at h; cases h
  | some sc =>
    rw [h1] at h
    simp only [Option.some_bind] at h
    cases h2 : procAll cfg embed sc.queued ⟨sc.stats, fi, sc.store⟩ with
    | none => rw [h2] at h; cases h
    | some p =>
      rw [h2] at h
      simp only [Option.map_some', Option.some.injEq] at h
      rw [← h]

/-- Claim C3 is false as stated: a repository containing one empty file
re-indexes it on every run (its manifest entry is never created), so the
second run reports `files_indexed = 1`, not 0. -/
theorem claim_C3_counterexample :
    ((index ⟨"m", 768, 2000, 200, 5, [], [], []⟩
        (fun b => toString b.length)
        (fun ts => some (ts.map (fun _ => ())))
        [⟨"a.txt", some "txt", false, false, some 0, some [], some [],
          none, 0, true, true⟩] ⟨[], 0⟩ []).bind (fun r1 =>
      index ⟨"m", 768, 2000, 200, 5, [], [], []⟩
        (fun b => toString b.length)
        (fun ts => some (ts.map (fun _ => ())))
        [⟨"a.txt", some "txt", false, false, some 0, some [], some [],
          none, 0, true, true⟩] r1.fileIndex r1.store)).map
      (fun r2 => r2.stats.files_indexed) = some 1 := by
  rfl

/-- Amended claim C3: running `index` twice in a row with no filesystem
changes yields on the second run `files_indexed = 0`,
`chunks_created = 0`, `files_unchanged = |manifest.files|`, the same
manifest value, and byte-identical manifest bytes — provided the first
run left every hashed candidate committed in the manifest with its
current hash and the manifest holds exactly the hashed candidates'
paths (in particular no empty or failed file was scanned, cf. the
counterexample; byte-identity is up to the serializer's key order, which
for Rust's `HashMap` is not deterministic). -/
theorem claim_C3_second_run {E : Type} (cfg : Config)
    (hashFn : List Nat → String)
    (embed : List (List Char) → Option (List E)) (entries : List FsEntry)
    (M0 : FileIndex) (S0 : Store) (r1 : IndexResult)
    (hrun1 : index cfg hashFn embed entries M0 S0 = some r1)
    (hAll : ∀ e ∈ entries, ∀ b, hashedCandB cfg e = true →
      e.content = some b →
      ∃ ex, alookup r1.fileIndex.files e.relPath = some ex ∧
        ex.hash = hashFn b)
    (hPerm : ((entries.filter (hashedCandB cfg)).map FsEntry.relPath).Perm
      (r1.fileIndex.files.map Prod.fst)) :
    ∃ r2, index cfg hashFn embed entries r1.fileIndex r1.store = some r2 ∧
      r2.stats.files_indexed = 0 ∧ r2.stats.chunks_created = 0 ∧
      r2.stats.files_unchanged = r1.fileIndex.files.length ∧
      r2.fileIndex = r1.fileIndex ∧
      r2.savedManifest = r1.savedManifest := by
  have hsaved := index_saved cfg hashFn embed entries M0 S0 r1 hrun1
  rw [index_eq] at hrun1
  have hmeta : ∀ e ∈ entries, e.isDir = false → e.inQs = false →
      should_index e.ext cfg = true → e.meta ≠ none := by
    cases h1 : scanAll cfg hashFn M0 entries ⟨IndexStats.init, S0, []⟩ with
    | none => rw [h1] at hrun1; cases hrun1
    | some sc => exact scanAll_some_meta cfg hashFn M0 entries _ sc h1
  obtain ⟨a, b, hscan2⟩ := scanAll_unchanged cfg hashFn r1.fileIndex
    entries hmeta hAll IndexStats.init r1.store
  have hcount : (entries.filter (hashedCandB cfg)).length =
      r1.fileIndex.files.length := by
    have h1 := hPerm.length_eq
    simpa using h1
  refine ⟨⟨⟨0 + a, 0, 0 + b,
      0 + (entries.filter (hashedCandB cfg)).length, 0⟩,
    r1.fileIndex, r1.store, manifestBytes r1.fileIndex⟩, ?_, rfl, rfl,
    ?_, rfl, hsaved.symm⟩
  · rw [index_eq, hscan2]
    simp [procAll, IndexStats.init]
  · simpa using hcount

/-- Witness for the amended C3: after a fresh one-file run, the second
run reports zero indexed files, one unchanged file, and writes the same
bytes. -/
theorem claim_C3_witness :
    ∃ r2, index ⟨"m", 768, 2000, 200, 5, [], [], []⟩
        (fun b => toString b.length)
        (fun ts => some (ts.map (fun _ => ())))
        [⟨"a.txt", some "txt", false, false, some 3, some [1, 2, 3],
          some "x\ny".toList, none, 7, true, true⟩]
        (⟨⟨1, 1, 0, 0, 1⟩, ⟨[("a.txt", ⟨"3", 7, 1, 0⟩)], 1⟩,
          [(0, ⟨"a.txt", 0, 1, 2, "x\ny".toList, "3"⟩)],
          manifestBytes ⟨[("a.txt", ⟨"3", 7, 1, 0⟩)], 1⟩⟩ :
          IndexResult).fileIndex
        (⟨⟨1, 1, 0, 0, 1⟩, ⟨[("a.txt", ⟨"3", 7, 1, 0⟩)], 1⟩,
          [(0, ⟨"a.txt", 0, 1, 2, "x\ny".toList, "3"⟩)],
          manifestBytes ⟨[("a.txt", ⟨"3", 7, 1, 0⟩)], 1⟩⟩ :
          IndexResult).store = some r2 ∧
      r2.stats.files_indexed = 0 ∧ r2.stats.chunks_created = 0 ∧
      r2.stats.files_unchanged =
        (⟨[("a.txt", ⟨"3", 7, 1, 0⟩)], 1⟩ : FileIndex).files.length ∧
      r2.fileIndex = ⟨[("a.txt", ⟨"3", 7, 1, 0⟩)], 1⟩ ∧
      r2.savedManifest = manifestBytes ⟨[("a.txt", ⟨"3", 7, 1, 0⟩)], 1⟩ :=
  claim_C3_second_run ⟨"m", 768, 2000, 200, 5, [], [], []⟩
    (fun b => toString b.length) (fun ts => some (ts.map (fun _ => ())))
    [⟨"a.txt", some "txt", false, false, some 3, some [1, 2, 3],
      some "x\ny".toList, none, 7, true, true⟩] ⟨[], 0⟩ []
    ⟨⟨1, 1, 0, 0, 1⟩, ⟨[("a.txt", ⟨"3", 7, 1, 0⟩)], 1⟩,
      [(0, ⟨"a.txt", 0, 1, 2, "x\ny".toList, "3"⟩)],
      manifestBytes ⟨[("a.txt", ⟨"3", 7, 1, 0⟩)], 1⟩⟩
    (by rfl)
    (by
      intro e he b hcand hb
      simp only [List.mem_singleton] at he
      subst he
      cases hb
      exact ⟨⟨"3", 7, 1, 0⟩, rfl, rfl⟩)
    (by decide)

/-- A committing `index_file` call: it returns the chunk count, extends
the manifest with the fresh range `[next_id, next_id + n)`, and upserts
one point per fresh id, each carrying the file's hash and path. -/
theorem index_file_commit {E : Type} (cfg : Config)
    (embed : List (List Char) → Option (List E)) (fi : FileIndex)
    (store : Store) (e : FsEntry) (h : String)
    (hc : CommitSpec cfg embed e) :
    ∃ n pts, 1 ≤ n ∧
      index_file cfg embed fi store e h =
        .ok (n, ⟨ainsert fi.files e.relPath ⟨h, e.mtime, n, fi.next_id⟩,
          fi.next_id + n⟩, storeUpsert store pts) ∧
      pts.map Prod.fst = List.range' fi.next_id n ∧
      ∀ q ∈ pts, q.2.file_hash = h ∧ q.2.path = e.relPath := by
  obtain ⟨t, ht, htne, cs, hex, hcsne, vs, hemb, hlen, hup⟩ := hc
  have hze : (cs.zip vs).length = cs.length := by
    rw [List.length_zip, hlen, Nat.min_self]
  refine ⟨cs.length,
    (cs.zip vs).enum.map (fun icv => (fi.next_id + icv.1,
      ⟨e.relPath, icv.2.1.index, icv.2.1.start_line, icv.2.1.end_line,
        icv.2.1.text, h⟩)),
    List.length_pos.2 hcsne, ?_, ?_, ?_⟩
  · simp [index_file, ht, List.isEmpty_iff, htne, hex, hcsne, hemb, hup]
  · rw [List.map_map]
    rw [show ((Prod.fst ∘ fun icv : Nat × (Chunk × E) =>
        (fi.next_id + icv.1,
          (⟨e.relPath, icv.2.1.index, icv.2.1.start_line,
            icv.2.1.end_line, icv.2.1.text, h⟩ : ChunkPayload))) =
        ((fun i => fi.next_id + i) ∘ Prod.fst)) from rfl]
    rw [← List.map_map, List.enum_map_fst, ← List.range'_eq_map_range,
      hze]
  · intro q hq
    obtain ⟨icv, _, rfl⟩ := List.mem_map.1 hq
    exact ⟨rfl, rfl⟩

/-- Freshly upserted points make the committed entry resolve. -/
theorem resolves_committed (S : Store)
    (pts : List (Nat × ChunkPayload)) (p h : String) (mt nid n : Nat)
    (hfst : pts.map Prod.fst = List.range' nid n)
    (hpl : ∀ q ∈ pts, q.2.file_hash = h ∧ q.2.path = p) :
    Resolves (storeUpsert S pts) p ⟨h, mt, n, nid⟩ := by
  intro i hi
  have hmem : nid + i ∈ pts.map Prod.fst := by
    rw [hfst]
    exact List.mem_range'_1.2 ⟨Nat.le_add_right _ _, by simp at hi ⊢; omega⟩
  obtain ⟨q, hq, hq1⟩ := List.mem_map.1 hmem
  have hnd : (pts.map Prod.fst).Nodup := by
    rw [hfst]
    exact List.nodup_range' _ _
  have hlk := storeUpsert_lookup_mem pts S (nid + i) q.2 hnd
    (by rw [← hq1]; exact hq)
  exact ⟨q.2, hlk, (hpl q hq).1, (hpl q hq).2⟩

/-- Upserting points with ids at or beyond `nid` does not disturb an
entry whose range ends within `nid`. -/
theorem resolves_upsert_high (S : Store)
    (pts : List (Nat × ChunkPayload)) (p : String) (m : FileMetadata)
    (nid n : Nat) (hfst : pts.map Prod.fst = List.range' nid n)
    (hm : m.start_id + m.chunk_count ≤ nid)
    (hres : Resolves S p m) : Resolves (storeUpsert S pts) p m := by
  intro i hi
  obtain ⟨pl, hl, hh, hp⟩ := hres i hi
  refine ⟨pl, ?_, hh, hp⟩
  rw [storeUpsert_lookup_not_mem pts S _ ?_]
  · exact hl
  · rw [hfst]
    intro hmem
    rw [List.mem_range'_1] at hmem
    omega

/-- Deleting ids disjoint from an entry's range does not disturb it. -/
theorem resolves_delete (S : Store) (ids : List Nat) (p : String)
    (m : FileMetadata)
    (hdisj : ∀ i < m.chunk_count, (m.start_id + i) ∉ ids)
    (hres : Resolves S p m) : Resolves (storeDelete S ids) p m := by
  intro i hi
  obtain ⟨pl, hl, hh, hp⟩ := hres i hi
  refine ⟨pl, ?_, hh, hp⟩
  rw [storeDelete_lookup ids _ (hdisj i hi)]
  exact hl

/-- Under the embedder contract, `index_file` panics, fails caught,
returns without touching manifest or store (empty text or zero chunks),
or satisfies the full commit conditions. -/
theorem index_file_cases {E : Type} (cfg : Config)
    (embed : List (List Char) → Option (List E)) (fi : FileIndex)
    (store : Store) (e : FsEntry) (h : String)
    (hlen : EmbedPerChunk cfg embed e) :
    index_file cfg embed fi store e h = .crash ∨
    index_file cfg embed fi store e h = .err ∨
    index_file cfg embed fi store e h = .ok (0, fi, store) ∨
    CommitSpec cfg embed e := by
  cases ht : e.text with
  | none => exact Or.inr (Or.inl (by simp [index_file, ht]))
  | some t =>
    by_cases hte : t.isEmpty = true
    · exact Or.inr (Or.inr (Or.inl (by simp [index_file, ht, hte])))
    · have htne : t ≠ [] := by simpa [List.isEmpty_iff] using hte
      cases hex : extract_chunks e.ext e.parsed t cfg.chunk_size
          cfg.chunk_overlap with
      | none => exact Or.inl (by simp [index_file, ht, hte, hex])
      | some cs =>
        by_cases hcse : cs.isEmpty = true
        · exact Or.inr (Or.inr (Or.inl
            (by simp [index_file, ht, hte, hex, hcse])))
        · have hcsne : cs ≠ [] := by simpa [List.isEmpty_iff] using hcse
          cases hemb : embed (cs.map Chunk.text) with
          | none => exact Or.inr (Or.inl
              (by simp [index_file, ht, hte, hex, hcse, hemb]))
          | some vs =>
            have hvl : vs.length = cs.length := hlen t ht cs hex vs hemb
            by_cases hup : e.upsertOk = true
            · exact Or.inr (Or.inr (Or.inr
                ⟨t, ht, htne, cs, hex, hcsne, vs, hemb, hvl, hup⟩))
            · rcases cs with _ | ⟨c0, cs'⟩
              · exact absurd rfl hcsne
              · rcases vs with _ | ⟨v0, vs'⟩
                · simp at hvl
                · exact Or.inr (Or.inl (index_file_err cfg embed e h
                    (Or.inr (Or.inr ⟨t, ht, htne, c0 :: cs', hex,
                      by simp, v0 :: vs', hemb, by simp,
                      Bool.eq_false_iff.2 hup⟩)) fi store))

/-- Processing the whole queue under the invariant yields a store in
which every manifest entry resolves. -/
theorem procAll_consistent {E : Type} (cfg : Config)
    (embed : List (List Char) → Option (List E)) :
    ∀ (pending : List (FsEntry × String)) (s p : ProcSt),
      ProcInv cfg embed s pending →
      procAll cfg embed pending s = some p →
      ManifestInv p.fi ∧ ∀ pm ∈ p.fi.files, Resolves p.store pm.1 pm.2 := by
  intro pending
  induction pending with
  | nil =>
    intro s p hinv hall
    cases hall
    exact ⟨hinv.1, fun pm hpm => hinv.2.1 pm hpm (by simp)⟩
  | cons eh rest ih =>
    intro s p hinv hall
    obtain ⟨hM, hRes, hNd, hCS⟩ := hinv
    rw [procAll] at hall
    simp only [List.map_cons, List.nodup_cons] at hNd
    by_cases hcs : CommitSpec cfg embed eh.1
    · obtain ⟨n, pts, hn1, hok, hfst, hpl⟩ := index_file_commit cfg embed
        s.fi s.store eh.1 eh.2 hcs
      simp only [procStep, hok] at hall
      refine ih _ p ⟨ManifestInv_commit s.fi eh.1.relPath eh.2 eh.1.mtime n
        hM, ?_, hNd.2, ?_⟩ hall
      · intro pm hpm hnotpending
        simp only at hpm
        rcases ainsert_mem_of_nodup s.fi.files eh.1.relPath _ pm hM.1 hpm
          with rfl | ⟨hm, hne⟩
        · exact resolves_committed s.store pts eh.1.relPath eh.2 eh.1.mtime
            s.fi.next_id n hfst hpl
        · refine resolves_upsert_high s.store pts pm.1 pm.2 s.fi.next_id n
            hfst (hM.2.1 pm hm) ?_
          refine hRes pm hm ?_
          simp only [List.map_cons, List.mem_cons]
          push_neg
          exact ⟨hne, hnotpending⟩
      · intro x hx
        refine ⟨(hCS x (List.mem_cons_of_mem _ hx)).1, ?_⟩
        rintro ⟨m, hmem⟩
        simp only at hmem
        rcases ainsert_mem_of_nodup s.fi.files eh.1.relPath _
            (x.1.relPath, m) hM.1 hmem with heq | ⟨hm, _⟩
        · exfalso
          apply hNd.1
          have hpeq : x.1.relPath = eh.1.relPath := congrArg Prod.fst heq
          rw [← hpeq]
          exact List.mem_map_of_mem _ hx
        · exact (hCS x (List.mem_cons_of_mem _ hx)).2 ⟨m, hm⟩
    · rcases index_file_cases cfg embed s.fi s.store eh.1 eh.2
          (hCS eh (List.mem_cons_self _ _)).1 with hcr | herr | hok0 | hcs'
      · simp only [procStep, hcr] at hall
        cases hall
      · simp only [procStep, herr] at hall
        refine ih ⟨{ s.stats with
            files_skipped := s.stats.files_skipped + 1 }, s.fi, s.store⟩
          p ⟨hM, ?_, hNd.2,
          fun x hx => hCS x (List.mem_cons_of_mem _ hx)⟩ hall
        intro pm hpm hnp
        refine hRes pm hpm ?_
        simp only [List.map_cons, List.mem_cons]
        push_neg
        refine ⟨?_, hnp⟩
        intro heq
        exact hcs ((hCS eh (List.mem_cons_self _ _)).2
          ⟨pm.2, heq ▸ (show (pm.1, pm.2) ∈ s.fi.files from hpm)⟩)
      · simp only [procStep, hok0] at hall
        refine ih ⟨{ s.stats with
            files_indexed := s.stats.files_indexed + 1,
            chunks_created := s.stats.chunks_created + 0 }, s.fi, s.store⟩
          p ⟨hM, ?_, hNd.2,
          fun x hx => hCS x (List.mem_cons_of_mem _ hx)⟩ hall
        intro pm hpm hnp
        refine hRes pm hpm ?_
        simp only [List.map_cons, List.mem_cons]
        push_neg
        refine ⟨?_, hnp⟩
        intro heq
        exact hcs ((hCS eh (List.mem_cons_self _ _)).2
          ⟨pm.2, heq ▸ (show (pm.1, pm.2) ∈ s.fi.files from hpm)⟩)
      · exact absurd hcs' hcs

/-- The scan phase: entries not queued keep resolving (the only deletes
are the stale ranges of changed files, disjoint from every other entry's
range), queued paths are distinct, and every queued file satisfies
`QueueCond`. -/
theorem scanAll_resolved (cfg : Config) (hashFn : List Nat → String)
    (M : FileIndex) (hInvM : ManifestInv M) :
    ∀ (l : List FsEntry) (t : IndexStats) (S : Store)
      (q : List (FsEntry × String)) (sc : ScanSt),
      scanAll cfg hashFn M l ⟨t, S, q⟩ = some sc →
      (∀ pm ∈ M.files, pm.1 ∉ q.map (fun eh => eh.1.relPath) →
        Resolves S pm.1 pm.2) →
      ((q.map (fun eh => eh.1.relPath)) ++ l.map FsEntry.relPath).Nodup →
      (∀ eh ∈ q, QueueCond cfg hashFn M eh) →
      (∀ pm ∈ M.files, pm.1 ∉ sc.queued.map (fun eh => eh.1.relPath) →
        Resolves sc.store pm.1 pm.2) ∧
      (sc.queued.map (fun eh => eh.1.relPath)).Nodup ∧
      (∀ eh ∈ sc.queued, QueueCond cfg hashFn M eh) := by
  intro l
  induction l with
  | nil =>
    intro t S q sc hall hres hnd hqc
    cases hall
    refine ⟨hres, ?_, hqc⟩
    simp only [List.map_nil, List.append_nil] at hnd
    exact hnd
  | cons e rest ih =>
    intro t S q sc hall hres hnd hqc
    have hnd' : ((q.map (fun eh => eh.1.relPath)) ++
        rest.map FsEntry.relPath).Nodup := by
      refine List.Sublist.nodup ?_ hnd
      exact List.Sublist.append_left (List.sublist_cons_self _ _) _
    by_cases hdir : e.isDir = true
    · have hstep : scanStep cfg hashFn M ⟨t, S, q⟩ e =
          some ⟨t, S, q⟩ := by simp [scanStep, hdir]
      rw [scanAll_cons _ _ _ _ _ _ _ hstep] at hall
      exact ih t S q sc hall hres hnd' hqc
    · rw [Bool.not_eq_true] at hdir
      by_cases hqs : e.inQs = true
      · have hstep : scanStep cfg hashFn M ⟨t, S, q⟩ e =
            some ⟨t, S, q⟩ := by simp [scanStep, hdir, hqs]
        rw [scanAll_cons _ _ _ _ _ _ _ hstep] at hall
        exact ih t S q sc hall hres hnd' hqc
      · rw [Bool.not_eq_true] at hqs
        by_cases hidx : should_index e.ext cfg = true
        · cases hmn : e.meta with
          | none =>
            have hnone : scanAll cfg hashFn M (e :: rest) ⟨t, S, q⟩ =
                none := by
              have hstep : scanStep cfg hashFn M ⟨t, S, q⟩ e = none := by
                simp [scanStep, hdir, hqs, hidx, hmn]
              rw [scanAll, hstep]
            rw [hnone] at hall
            cases hall
          | some nsz =>
            by_cases hsz : cfg.max_file_size < nsz
            · have hstep : scanStep cfg hashFn M ⟨t, S, q⟩ e =
                  some ⟨{ t with
                    files_scanned := t.files_scanned + 1,
                    files_skipped := t.files_skipped + 1 }, S, q⟩ := by
                simp [scanStep, hdir, hqs, hidx, hmn, hsz]
              rw [scanAll_cons _ _ _ _ _ _ _ hstep] at hall
              exact ih _ S q sc hall hres hnd' hqc
            · rw [Nat.not_lt] at hsz
              cases hcont : e.content with
              | none =>
                have hstep : scanStep cfg hashFn M ⟨t, S, q⟩ e =
                    some ⟨{ t with
                      files_scanned := t.files_scanned + 1,
                      files_skipped := t.files_skipped + 1 }, S, q⟩ := by
                  simp [scanStep, hdir, hqs, hidx, hmn, hcont,
                    Nat.not_lt.2 hsz]
                rw [scanAll_cons _ _ _ _ _ _ _ hstep] at hall
                exact ih _ S q sc hall hres hnd' hqc
              | some bytes =>
                have hndq : (((q ++ [(e, hashFn bytes)]).map
                    (fun eh => eh.1.relPath)) ++
                    rest.map FsEntry.relPath).Nodup := by
                  rw [List.map_append, List.append_assoc]
                  simpa using hnd
                have hqcq : ∀ hx : ∀ ex, alookup M.files e.relPath =
                      some ex → ex.hash ≠ hashFn bytes,
                    ∀ eh ∈ q ++ [(e, hashFn bytes)],
                      QueueCond cfg hashFn M eh := by
                  intro hx eh heh
                  rcases List.mem_append.1 heh with hm | hm
                  · exact hqc eh hm
                  · simp only [List.mem_singleton] at hm
                    subst hm
                    exact ⟨hdir, hqs, hidx, ⟨nsz, hmn, hsz⟩,
                      bytes, hcont, rfl, hx⟩
                cases halk : alookup M.files e.relPath with
                | some ex =>
                  by_cases hh : ex.hash = hashFn bytes
                  · have hstep : scanStep cfg hashFn M ⟨t, S, q⟩ e =
                        some ⟨{ t with
                          files_scanned := t.files_scanned + 1,
                          files_unchanged := t.files_unchanged + 1 },
                          S, q⟩ := by
                      simp [scanStep, hdir, hqs, hidx, hmn, hcont,
                        Nat.not_lt.2 hsz, halk, hh]
                    rw [scanAll_cons _ _ _ _ _ _ _ hstep] at hall
                    exact ih _ S q sc hall hres hnd' hqc
                  · have hx : ∀ ex', alookup M.files e.relPath =
                        some ex' → ex'.hash ≠ hashFn bytes := by
                      intro ex' hex'
                      rw [halk] at hex'
                      cases hex'
                      exact hh
                    have hresq : ∀ pm ∈ M.files, pm.1 ∉
                        ((q ++ [(e, hashFn bytes)]).map
                          (fun eh => eh.1.relPath)) →
                        Resolves (storeDelete S
                          (List.range' ex.start_id ex.chunk_count))
                          pm.1 pm.2 := by
                      intro pm hm hnp
                      rw [List.map_append, List.mem_append] at hnp
                      push_neg at hnp
                      have hne : pm.1 ≠ e.relPath := by
                        intro heq
                        exact hnp.2 (by simp [heq])
                      refine resolves_delete S _ pm.1 pm.2 ?_
                        (hres pm hm hnp.1)
                      have hexmem : (e.relPath, ex) ∈ M.files :=
                        alookup_mem _ _ _ halk
                      have hsym : Symmetric
                          (fun a b : String × FileMetadata =>
                            rangesDisjoint a.2 b.2) :=
                        fun a b hab => Or.symm hab
                      have hdisj2 : rangesDisjoint pm.2 ex :=
                        hInvM.2.2.forall hsym hm hexmem
                          (fun heq => hne (by rw [heq]))
                      intro i hi hmemr
                      rw [List.mem_range'_1] at hmemr
                      rcases hdisj2 with h1 | h2 <;> omega
                    rcases Nat.eq_zero_or_pos ex.chunk_count with hcc | hcc
                    · have hstep : scanStep cfg hashFn M ⟨t, S, q⟩ e =
                          some ⟨{ t with
                            files_scanned := t.files_scanned + 1 },
                            storeDelete S
                              (List.range' ex.start_id ex.chunk_count),
                            q ++ [(e, hashFn bytes)]⟩ := by
                        simp [scanStep, hdir, hqs, hidx, hmn, hcont,
                          Nat.not_lt.2 hsz, halk, hh, hcc]
                      rw [scanAll_cons _ _ _ _ _ _ _ hstep] at hall
                      exact ih _ _ _ sc hall hresq hndq (hqcq hx)
                    · by_cases hdd : e.deleteOk = true
                      · have hstep : scanStep cfg hashFn M ⟨t, S, q⟩ e =
                            some ⟨{ t with
                              files_scanned := t.files_scanned + 1 },
                              storeDelete S
                                (List.range' ex.start_id ex.chunk_count),
                              q ++ [(e, hashFn bytes)]⟩ := by
                          simp [scanStep, hdir, hqs, hidx, hmn, hcont,
                            Nat.not_lt.2 hsz, halk, hh, hdd]
                        rw [scanAll_cons _ _ _ _ _ _ _ hstep] at hall
                        exact ih _ _ _ sc hall hresq hndq (hqcq hx)
                      · have hnone : scanAll cfg hashFn M (e :: rest)
                            ⟨t, S, q⟩ = none := by
                          have hstep : scanStep cfg hashFn M ⟨t, S, q⟩ e =
                              none := by
                            simp [scanStep, hdir, hqs, hidx, hmn, hcont,
                              Nat.not_lt.2 hsz, halk, hh, hdd,
                              List.isEmpty_iff, Nat.pos_iff_ne_zero.1 hcc]
                          rw [scanAll, hstep]
                        rw [hnone] at hall
                        cases hall
                | none =>
                  have hx : ∀ ex', alookup M.files e.relPath = some ex' →
                      ex'.hash ≠ hashFn bytes := by
                    intro ex' hex'
                    rw [halk] at hex'
                    cases hex'
                  have hstep : scanStep cfg hashFn M ⟨t, S, q⟩ e =
                      some ⟨{ t with
                        files_scanned := t.files_scanned + 1 },
                        S, q ++ [(e, hashFn bytes)]⟩ := by
                    simp [scanStep, hdir, hqs, hidx, hmn, hcont,
                      Nat.not_lt.2 hsz, halk]
                  rw [scanAll_cons _ _ _ _ _ _ _ hstep] at hall
                  have hresq : ∀ pm ∈ M.files, pm.1 ∉
                      ((q ++ [(e, hashFn bytes)]).map
                        (fun eh => eh.1.relPath)) →
                      Resolves S pm.1 pm.2 := by
                    intro pm hm hnp
                    rw [List.map_append, List.mem_append] at hnp
                    push_neg at hnp
                    exact hres pm hm hnp.1
                  exact ih _ _ _ sc hall hresq hndq (hqcq hx)
        · rw [Bool.not_eq_true] at hidx
          have hstep : scanStep cfg hashFn M ⟨t, S, q⟩ e =
              some ⟨{ t with
                files_scanned := t.files_scanned + 1,
                files_skipped := t.files_skipped + 1 }, S, q⟩ := by
            simp [scanStep, hdir, hqs, hidx]
          rw [scanAll_cons _ _ _ _ _ _ _ hstep] at hall
          exact ih _ S q sc hall hres hnd' hqc

/-- One scan step either leaves the queue alone or appends the scanned
entry with some hash. -/
theorem scanStep_queued (cfg : Config) (hashFn : List Nat → String)
    (fi : FileIndex) (s : ScanSt) (e : FsEntry) (s' : ScanSt)
    (h : scanStep cfg hashFn fi s e = some s') :
    s'.queued = s.queued ∨ ∃ hh, s'.queued = s.queued ++ [(e, hh)] := by
  simp only [scanStep] at h
  repeat' split at h
  all_goals first
    | (cases h; exact Or.inl rfl)
    | (cases h; exact Or.inr ⟨_, rfl⟩)
    | (cases h)

/-- Every queued pair comes from the initial queue or from a walked
entry. -/
theorem scanAll_queued_mem (cfg : Config) (hashFn : List Nat → String)
    (fi : FileIndex) :
    ∀ (l : List FsEntry) (s : ScanSt) (sc : ScanSt),
      scanAll cfg hashFn fi l s = some sc →
      ∀ eh ∈ sc.queued, eh ∈ s.queued ∨ eh.1 ∈ l := by
  intro l
  induction l with
  | nil =>
    intro s sc hall eh heh
    cases hall
    exact Or.inl heh
  | cons e rest ih =>
    intro s sc hall eh heh
    rw [scanAll] at hall
    cases hstep : scanStep cfg hashFn fi s e with
    | none => rw [hstep] at hall; cases hall
    | some s1 =>
      rw [hstep] at hall
      rcases ih s1 sc hall eh heh with hq | hl
      · rcases scanStep_queued cfg hashFn fi s e s1 hstep with h1 | ⟨hh, h1⟩
        · rw [h1] at hq
          exact Or.inl hq
        · rw [h1] at hq
          rcases List.mem_append.1 hq with hm | hm
          · exact Or.inl hm
          · simp only [List.mem_singleton] at hm
            subst hm
            exact Or.inr (List.mem_cons_self _ _)
      · exact Or.inr (List.mem_cons_of_mem _ hl)

/-- Counting: pairwise-disjoint resolving ranges inject into the store,
so the exact count dominates the summed chunk counts. -/
theorem count_from_resolution (M : FileIndex) (S : Store)
    (hinv : ManifestInv M)
    (hres : ∀ pm ∈ M.files, Resolves S pm.1 pm.2) :
    sumChunks M ≤ S.length := by
  have hlen : (M.files.flatMap
      (fun pm => List.range' pm.2.start_id pm.2.chunk_count)).length =
      sumChunks M := by
    rw [List.length_flatMap, sumChunks]
    congr 1
    simp [Function.comp_def]
  have hnd : (M.files.flatMap
      (fun pm => List.range' pm.2.start_id pm.2.chunk_count)).Nodup := by
    refine List.nodup_flatMap.2 ⟨fun x _ => List.nodup_range' _ _, ?_⟩
    refine hinv.2.2.imp ?_
    intro a b hab
    intro x hxa hxb
    rw [List.mem_range'_1] at hxa hxb
    rcases hab with h1 | h2 <;> omega
  have hsub : (M.files.flatMap
      (fun pm => List.range' pm.2.start_id pm.2.chunk_count)) ⊆
      S.map Prod.fst := by
    intro x hx
    obtain ⟨pm, hpm, hxr⟩ := List.mem_flatMap.1 hx
    rw [List.mem_range'_1] at hxr
    obtain ⟨pl, hl, _, _⟩ := hres pm hpm (x - pm.2.start_id) (by omega)
    rw [show pm.2.start_id + (x - pm.2.start_id) = x from by omega] at hl
    exact alookup_mem_keys _ _ _ hl
  have hle := (List.subperm_of_subset hnd hsub).length_le
  rw [hlen] at hle
  simpa using hle

/-- Claim C1 is false as stated: a changed file whose re-indexing fails
(here, at embedding) is counted as skipped, its old ids are already
deleted from the store, and the run still returns `Ok` — leaving a
manifest entry whose ids resolve to nothing, with the store count below
the summed chunk counts. -/
theorem claim_C1_counterexample :
    ∃ r, index ⟨"m", 768, 2000, 200, 5, [], [], []⟩
        (fun b => toString b.length)
        (fun _ => (none : Option (List Unit)))
        [⟨"a.txt", some "txt", false, false, some 4, some [9, 9, 9, 9],
          some ['z', 'z'], none, 7, true, true⟩]
        ⟨[("a.txt", ⟨"3", 7, 1, 0⟩)], 1⟩
        [(0, ⟨"a.txt", 0, 1, 1, ['x'], "3"⟩)] = some r ∧
      r.stats.files_skipped = 1 ∧
      ¬ (sumChunks r.fileIndex ≤ r.store.length) := by
  refine ⟨⟨⟨1, 0, 1, 0, 0⟩, ⟨[("a.txt", ⟨"3", 7, 1, 0⟩)], 1⟩, [],
    manifestBytes ⟨[("a.txt", ⟨"3", 7, 1, 0⟩)], 1⟩⟩, by rfl, rfl, ?_⟩
  decide

/-- Amended claim C1: after a successful `index` run — provided the
manifest invariant and the per-entry resolution property held
beforehand, candidate paths are distinct, every queued file respects the
embedder contract (one vector per chunk whenever embedding succeeds),
and every queued file that was already in the manifest, i.e. a changed
file whose stale ids the scan deleted, fully commits (readable non-empty
text, at least one chunk, one embedding per chunk, successful upsert) —
the store's exact count is at least the sum of `chunk_count` over all
manifest entries, and every id in every entry's range resolves to a
payload with the entry's hash and path.  New files may fail in any
caught way; their entries are simply never created.  As stated the claim
is false: a changed file's per-file failure after its stale range was
deleted leaves an entry whose ids are gone (see the counterexample). -/
theorem claim_C1_store_consistency {E : Type} (cfg : Config)
    (hashFn : List Nat → String)
    (embed : List (List Char) → Option (List E))
    (entries : List FsEntry) (M0 : FileIndex) (S0 : Store)
    (r : IndexResult)
    (hInv : ManifestInv M0)
    (hRes : ∀ pm ∈ M0.files, Resolves S0 pm.1 pm.2)
    (hPaths : (entries.map FsEntry.relPath).Nodup)
    (hCommit : ∀ e ∈ entries, ∀ hh,
      QueueCond cfg hashFn M0 (e, hh) →
      EmbedPerChunk cfg embed e ∧
      ((∃ m, (e.relPath, m) ∈ M0.files) → CommitSpec cfg embed e))
    (hrun : index cfg hashFn embed entries M0 S0 = some r) :
    sumChunks r.fileIndex ≤ r.store.length ∧
    ∀ pm ∈ r.fileIndex.files, Resolves r.store pm.1 pm.2 := by
  rw [index_eq] at hrun
  cases h1 : scanAll cfg hashFn M0 entries ⟨IndexStats.init, S0, []⟩ with
  | none => rw [h1] at hrun; cases hrun
  | some sc =>
    rw [h1] at hrun
    simp only [Option.some_bind] at hrun
    cases h2 : procAll cfg embed sc.queued ⟨sc.stats, M0, sc.store⟩ with
    | none => rw [h2] at hrun; cases hrun
    | some p =>
      rw [h2] at hrun
      simp only [Option.map_some', Option.some.injEq] at hrun
      obtain ⟨hres2, hnd2, hqc2⟩ := scanAll_resolved cfg hashFn M0 hInv
        entries IndexStats.init S0 [] sc h1
        (fun pm hm _ => hRes pm hm) (by simpa using hPaths) (by simp)
      have hmem := scanAll_queued_mem cfg hashFn M0 entries
        ⟨IndexStats.init, S0, []⟩ sc h1
      have hproc := procAll_consistent cfg embed sc.queued
        ⟨sc.stats, M0, sc.store⟩ p
        ⟨hInv, hres2, hnd2, ?_⟩ h2
      · rw [← hrun]
        exact ⟨count_from_resolution p.fi p.store hproc.1 hproc.2,
          hproc.2⟩
      · intro eh heh
        rcases hmem eh heh with hq | hl
        · simp at hq
        · exact hCommit eh.1 hl eh.2 (hqc2 eh heh)

/-- Witness for the amended C1: a fresh run over one committing file and
one new file whose text extraction fails (so it is skipped) leaves the
store holding exactly the committed chunk, and the single manifest entry
resolves to it. -/
theorem claim_C1_witness :
    sumChunks ⟨[("a.txt", ⟨"3", 7, 1, 0⟩)], 1⟩ ≤
      List.length [(0, (⟨"a.txt", 0, 1, 2, "x\ny".toList, "3"⟩ :
        ChunkPayload))] ∧
    ∀ pm ∈ (⟨[("a.txt", ⟨"3", 7, 1, 0⟩)], 1⟩ : FileIndex).files,
      Resolves [(0, ⟨"a.txt", 0, 1, 2, "x\ny".toList, "3"⟩)] pm.1 pm.2 :=
  claim_C1_store_consistency ⟨"m", 768, 2000, 200, 5, [], [], []⟩
    (fun b => toString b.length) (fun ts => some (ts.map (fun _ => ())))
    [⟨"a.txt", some "txt", false, false, some 3, some [1, 2, 3],
      some "x\ny".toList, none, 7, true, true⟩,
     ⟨"b.txt", some "txt", false, false, some 1, some [5], none,
      none, 0, true, true⟩] ⟨[], 0⟩ []
    ⟨⟨2, 1, 1, 0, 1⟩, ⟨[("a.txt", ⟨"3", 7, 1, 0⟩)], 1⟩,
      [(0, ⟨"a.txt", 0, 1, 2, "x\ny".toList, "3"⟩)],
      manifestBytes ⟨[("a.txt", ⟨"3", 7, 1, 0⟩)], 1⟩⟩
    (by simp [ManifestInv]) (by simp) (by decide)
    (by
      intro e he hh _
      rcases List.mem_cons.1 he with rfl | he2
      · refine ⟨?_, fun _ => ⟨"x\ny".toList, rfl, by decide,
          [⟨"x\ny".toList, 1, 2, 0⟩], by rfl, by decide,
          [()], rfl, rfl, rfl⟩⟩
        intro t ht cs hcs vs hvs
        injection ht with ht2
        subst ht2
        rw [show extract_chunks (some "txt") none "x\ny".toList 2000 200 =
          some [⟨"x\ny".toList, 1, 2, 0⟩] from rfl] at hcs
        injection hcs with hcs2
        subst hcs2
        injection hvs with hvs2
        subst hvs2
        rfl
      · simp only [List.mem_singleton] at he2
        subst he2
        exact ⟨(fun t ht => nomatch ht), by rintro ⟨m, hm⟩; simp at hm⟩)
    (by rfl)

/-- Claim C8: a candidate file of size exactly `max_file_size` passes the
size filter and proceeds to hashing and diffing (a new file is hashed and
queued for indexing), while a file of size `max_file_size + 1` is rejected
by the size filter and counted in `files_skipped`. -/
theorem claim_C8_size_filter (cfg : Config) (hashFn : List Nat → String)
    (fi : FileIndex) (s : ScanSt) (e : FsEntry) (bytes : List Nat)
    (hdir : e.isDir = false) (hqs : e.inQs = false)
    (hidx : should_index e.ext cfg = true)
    (hcontent : e.content = some bytes)
    (hnew : alookup fi.files e.relPath = none) :
    (e.meta = some cfg.max_file_size →
      scanStep cfg hashFn fi s e =
        some ⟨{ s.stats with files_scanned := s.stats.files_scanned + 1 },
          s.store, s.queued ++ [(e, hashFn bytes)]⟩) ∧
    (e.meta = some (cfg.max_file_size + 1) →
      scanStep cfg hashFn fi s e =
        some ⟨{ s.stats with
            files_scanned := s.stats.files_scanned + 1,
            files_skipped := s.stats.files_skipped + 1 },
          s.store, s.queued⟩) := by
  constructor <;> intro hmeta <;>
    simp [scanStep, hdir, hqs, hidx, hmeta, hcontent, hnew]

/-- Witness for C8: with `max_file_size = 5`, a 5-byte candidate is
queued with its hash and a 6-byte candidate is skipped. -/
theorem claim_C8_witness :
    scanStep ⟨"m", 768, 2000, 200, 5, [], [], []⟩ (fun b => toString b.length)
        ⟨[], 0⟩ ⟨IndexStats.init, [], []⟩
        ⟨"a.txt", some "txt", false, false, some 5, some [7], some ['x'],
          none, 0, true, true⟩ =
      some ⟨⟨1, 0, 0, 0, 0⟩, [],
        [(⟨"a.txt", some "txt", false, false, some 5, some [7], some ['x'],
          none, 0, true, true⟩, "1")]⟩ ∧
    scanStep ⟨"m", 768, 2000, 200, 5, [], [], []⟩ (fun b => toString b.length)
        ⟨[], 0⟩ ⟨IndexStats.init, [], []⟩
        ⟨"a.txt", some "txt", false, false, some 6, some [7], some ['x'],
          none, 0, true, true⟩ =
      some ⟨⟨1, 0, 1, 0, 0⟩, [], []⟩ := by
  constructor
  · have h := (claim_C8_size_filter ⟨"m", 768, 2000, 200, 5, [], [], []⟩
      (fun b => toString b.length) ⟨[], 0⟩ ⟨IndexStats.init, [], []⟩
      ⟨"a.txt", some "txt", false, false, some 5, some [7], some ['x'],
        none, 0, true, true⟩ [7] rfl rfl (by decide) rfl rfl).1 rfl
    exact h
  · have h := (claim_C8_size_filter ⟨"m", 768, 2000, 200, 5, [], [], []⟩
      (fun b => toString b.length) ⟨[], 0⟩ ⟨IndexStats.init, [], []⟩
      ⟨"a.txt", some "txt", false, false, some 6, some [7], some ['x'],
        none, 0, true, true⟩ [7] rfl rfl (by decide) rfl rfl).2 rfl
    exact h

/-- Claim C4: when `index_file` fails on a queued file with a caught
error (text extraction, embedding or upsert), the processing loop
continues with the manifest — the entry map and `next_id` — and the store
exactly as they were before that file, counting it as skipped; when it
fails with an uncaught panic (chunk extraction), the run aborts and no
manifest is saved at all.  The manifest is never left mid-transition. -/
theorem claim_C4_manifest_untouched {E : Type} (cfg : Config)
    (embed : List (List Char) → Option (List E)) (st : ProcSt)
    (e : FsEntry) (h : String) (rest : List (FsEntry × String)) :
    (index_file cfg embed st.fi st.store e h = .err →
      procAll cfg embed ((e, h) :: rest) st =
        procAll cfg embed rest
          ⟨{ st.stats with files_skipped := st.stats.files_skipped + 1 },
            st.fi, st.store⟩) ∧
    (index_file cfg embed st.fi st.store e h = .crash →
      procAll cfg embed ((e, h) :: rest) st = none) := by
  constructor <;> intro hf <;>
    simp [procAll, procStep, hf]

/-- Witness for C4: a queued file whose text extraction fails is skipped
and the manifest passes through untouched. -/
theorem claim_C4_witness :
    procAll ⟨"m", 768, 2000, 200, 5, [], [], []⟩
        (fun ts => some (ts.map (fun _ => ())))
        [(⟨"a.txt", some "txt", false, false, some 1, some [7], none,
          none, 0, true, true⟩, "h")]
        ⟨IndexStats.init, ⟨[("b.txt", ⟨"g", 0, 1, 0⟩)], 1⟩, []⟩ =
      procAll ⟨"m", 768, 2000, 200, 5, [], [], []⟩
        (fun ts => some (ts.map (fun _ => ())))
        [] ⟨⟨0, 0, 1, 0, 0⟩, ⟨[("b.txt", ⟨"g", 0, 1, 0⟩)], 1⟩, []⟩ :=
  (claim_C4_manifest_untouched ⟨"m", 768, 2000, 200, 5, [], [], []⟩
    (fun ts => some (ts.map (fun _ => ())))
    ⟨IndexStats.init, ⟨[("b.txt", ⟨"g", 0, 1, 0⟩)], 1⟩, []⟩
    ⟨"a.txt", some "txt", false, false, some 1, some [7], none, none, 0,
      true, true⟩ "h" []).1 rfl

end QsVerify
